import Mathlib

/-!
A verification development for helm-mirror.

A shallow embedding of the two services of the repository,

* `service/get.go`: `GetService.Get`, `writeFile`, `prepareIndexFile`, `moveFile`;
* `service/inspectImages.go`: `sanitizeImageString`, `cleanUp`, `processTarget`,
  `processDirectory`, `Images`;

together with the Go library functions they call (`strings.Replace`,
`strings.TrimSpace`, `strings.TrimPrefix`, `bytes.Replace`, `bytes.Count`,
`bytes.Index`, `path.Join`, `filepath.Walk`, `bufio.Scanner`) and the
environment they act on.

Modelling choices:

* Go strings and byte slices are modelled by the list of their code points
  (`List Char`): the development speaks about strings that are valid UTF-8,
  which is what the rune-oriented library functions (`TrimSpace`, the
  empty-pattern branch of `Replace`) decode.
* The environment is a `World`: a file system (a map from path to content and
  permission bits), the bodies the HTTP client is served, and the trace of the
  calls issued so far with their outcome.  A call fails when its natural
  precondition fails (reading a file that does not exist, creating a file with
  an empty name) or when the environment makes it fail: `World.faults` lists,
  by position in the run, the calls that fail for an outside reason, so that
  every call of a run can fail independently of the others.  A failing
  `os.WriteFile` either fails at the open and leaves the file system as it
  was, or fails after it and leaves its file created or truncated, with the
  bytes written so far (`World.torn`).
* A Go `error` result is an `Option GoError` (`none` is `nil`); a result with a
  value is an `Except GoError`.  Stateful functions take the world and return
  their result with the new world.
* The helm library calls that precede the download loop of `Get` are given by
  their outcomes (`HelmRepo`).
* The image service only reads its environment (`ImagesEnv`): the file tree
  that `filepath.Walk` finds, whose entries may be unreadable, and the helm
  library calls of `processTarget` as functions of their arguments.  A value
  tree is a `map[string]interface{}` with null, scalar, sequence and map
  values.
-/

namespace HelmMirror

/-! ## Go library: `strings` / `bytes` -/

/-- A Go `string` (or `[]byte`) seen as its sequence of code points. -/
abbrev GoString := List Char

/-- Go `unicode.IsSpace`: the Latin-1 switch and the `White_Space` range table. -/
def isSpace (c : Char) : Bool :=
  let r := c.toNat
  if r ≤ 0xFF then
    r = 0x09 || r = 0x0A || r = 0x0B || r = 0x0C || r = 0x0D || r = 0x20 || r = 0x85 || r = 0xA0
  else
    r = 0x1680 || (0x2000 ≤ r && r ≤ 0x200A) || r = 0x2028 || r = 0x2029 || r = 0x202F
      || r = 0x205F || r = 0x3000

/-- Go `strings.TrimSpace`: all leading and trailing white space removed. -/
def trimSpace (s : GoString) : GoString :=
  ((s.dropWhile isSpace).reverse.dropWhile isSpace).reverse

/-- Go `strings.HasPrefix`. -/
def hasPrefix (s pre : GoString) : Bool :=
  pre.isPrefixOf s

/-- Go `strings.TrimPrefix`: `s` without the leading `pre`, or `s` itself. -/
def trimPrefix (s pre : GoString) : GoString :=
  if hasPrefix s pre then s.drop pre.length else s

/-- Go `strings.Index`: the index of the first instance of `sep` in `s`,
`none` standing for Go's `-1`. -/
def index : GoString → GoString → Option Nat
  | [], sep => if sep = [] then some 0 else none
  | c :: s, sep =>
    if sep.isPrefixOf (c :: s) then some 0 else (index s sep).map (· + 1)

/-- The counting loop of Go `strings.Count` for a non-empty separator:
`for { i := Index(s, sep); if i == -1 { return n }; n++; s = s[i+len(sep):] }`.
The loop runs at most `len(s) + 1` times; `fuel` bounds it. -/
def countLoop (sep : GoString) : Nat → GoString → Nat → Nat
  | 0, _, n => n
  | fuel + 1, s, n =>
    match index s sep with
    | none => n
    | some i => countLoop sep fuel (s.drop (i + sep.length)) (n + 1)

/-- Go `strings.Count` / `bytes.Count`: the number of non-overlapping instances
of `sep` in `s`; for an empty `sep` it is the number of runes plus one. -/
def count (s sep : GoString) : Nat :=
  if sep = [] then s.length + 1 else countLoop sep (s.length + 1) s 0

/-- The replacement loop of Go `strings.Replace` / `bytes.Replace`
(`for i := 0; i < n; i++ { ... }` followed by the final `WriteString(s[start:])`).
`rest` is `s[start:]`, `first` is `i == 0`, the result is what is appended to
the builder from this iteration on.  `Index` cannot return `-1` inside the loop
because `n` never exceeds `Count(s, old)`; that branch keeps the rest. -/
def replaceLoop (old new : GoString) : Nat → Bool → GoString → GoString
  | 0, _, rest => rest
  | n + 1, first, rest =>
    if old = [] then
      let j := if first then 0 else 1
      rest.take j ++ new ++ replaceLoop old new n false (rest.drop j)
    else
      match index rest old with
      | none => rest
      | some j => rest.take j ++ new ++ replaceLoop old new n false (rest.drop (j + old.length))

/-- Go `strings.Replace`: a copy of `s` with the first `n` non-overlapping
instances of `old` replaced by `new` (all of them if `n < 0`). -/
def stringsReplace (s old new : GoString) (n : Int) : GoString :=
  if old = new ∨ n = 0 then s
  else
    let m := count s old
    if m = 0 then s
    else replaceLoop old new (if n < 0 ∨ (m : Int) < n then m else n.toNat) true s

/-- The number of iterations of the replacement loop of Go `bytes.Replace`,
that is the number of substitutions it performs: `m = Count(s, old)` when
`n != 0`, capped by a non-negative `n`. -/
def bytesReplaceCount (s old : GoString) (n : Int) : Nat :=
  let m := if n ≠ 0 then count s old else 0
  if m = 0 then 0
  else if n < 0 ∨ (m : Int) < n then m else n.toNat

/-- Go `bytes.Replace`: a copy of `s` with the first `n` non-overlapping
instances of `old` replaced by `new` (all of them if `n < 0`). -/
def bytesReplace (s old new : GoString) (n : Int) : GoString :=
  let m := if n ≠ 0 then count s old else 0
  if m = 0 then s
  else replaceLoop old new (if n < 0 ∨ (m : Int) < n then m else n.toNat) true s

/-! ## `service/inspectImages.go` -/

/-- The double-quote character, the content of the Go literal `"\""`. -/
def dquote : Char := Char.ofNat 34

/-- The function `sanitizeImageString` of `service/inspectImages.go`. -/
def sanitizeImageString (s : GoString) : GoString :=
  let s := stringsReplace s [dquote] [] 2
  let s := trimSpace s
  let s := trimPrefix s "-".toList
  let s := trimSpace s
  let s := trimPrefix s "image: ".toList
  let s := trimSpace s
  s

/-! ## The specification of the root URL rewrite -/

/-- The specification of "`s` with every occurrence of `old` replaced by
`new`": `s` is read from the left; where `old` occurs, `new` is written and
reading resumes behind the occurrence; elsewhere the character is copied.
Occurrences are thus taken from the left and do not overlap, as in Go
`bytes.Count` and in the repository test, which counts with `strings.Count`.
The empty `old` occurs before every character and at the end.  `skip` is the
number of characters still to pass over behind the last occurrence. -/
def substituteAll (old new : GoString) : Nat → GoString → GoString
  | _, [] => if old = [] then new else []
  | skip + 1, _ :: s => substituteAll old new skip s
  | 0, c :: s =>
    if old.isPrefixOf (c :: s) then
      new ++ (if old = [] then c :: substituteAll old new 0 s
        else substituteAll old new (old.length - 1) s)
    else c :: substituteAll old new 0 s

/-- The specification of "the number of literal occurrences of `old` in `s`",
read from the left as in `substituteAll`. -/
def occurrences (old : GoString) : Nat → GoString → Nat
  | _, [] => if old = [] then 1 else 0
  | skip + 1, _ :: s => occurrences old skip s
  | 0, c :: s =>
    if old.isPrefixOf (c :: s) then
      1 + (if old = [] then occurrences old 0 s else occurrences old (old.length - 1) s)
    else occurrences old 0 s

/-! ## Go library: `path` -/

/-- The element loop of Go `path.Clean`, on the `/`-separated elements of the
path: empty and `.` elements are skipped, a `..` element removes the last kept
element when there is one that is not itself a kept `..`, is dropped at the
root, and is kept otherwise.  `out` is the stack of kept elements, last first. -/
def cleanElems (rooted : Bool) : List GoString → List GoString → List GoString
  | [], out => out.reverse
  | e :: es, out =>
    if e = [] ∨ e = ['.'] then cleanElems rooted es out
    else if e = ['.', '.'] then
      match out with
      | top :: out1 =>
        if top = ['.', '.'] then cleanElems rooted es (e :: out)
        else cleanElems rooted es out1
      | [] => if rooted then cleanElems rooted es [] else cleanElems rooted es [e]
    else cleanElems rooted es (e :: out)

/-- Go `path.Clean`. -/
def pathClean (p : GoString) : GoString :=
  if p = [] then ['.']
  else
    let rooted := p.head? = some '/'
    let body := List.intercalate ['/'] (cleanElems rooted (p.splitOn '/') [])
    if rooted then '/' :: body
    else if body = [] then ['.'] else body

/-- Go `path.Join`: the non-empty elements joined by `/`, then cleaned; the
empty string when every element is empty. -/
def pathJoin (elems : List GoString) : GoString :=
  let kept := elems.filter (fun e => !e.isEmpty)
  if kept = [] then [] else pathClean (List.intercalate ['/'] kept)

/-! ## The environment: file system, HTTP client, logger -/

/-- The operations the services ask of the operating system and of the HTTP
client. -/
inductive Op
  | httpGet | writeFile | readFile | open | create | copy | close | sync | stat | chmod | remove
  deriving DecidableEq, Repr

/-- One call: the operation and the path (or URL) it is applied to. -/
structure Call where
  op : Op
  arg : GoString
  deriving DecidableEq, Repr

/-- A non-nil Go `error`: it names the call that failed. -/
structure GoError where
  call : Call
  deriving DecidableEq, Repr

/-- One entry of the call trace: the call and whether it succeeded. -/
structure Event where
  call : Call
  ok : Bool
  deriving DecidableEq, Repr

/-- A regular file: its bytes and its permission bits. -/
structure File where
  content : GoString
  mode : Nat
  deriving DecidableEq, Repr, Inhabited

/-- An argument of a `logger.Printf` call. -/
inductive LogArg
  | str (s : GoString)
  | err (e : Option GoError)
  deriving DecidableEq, Repr

/-- One `logger.Printf` call: format and arguments. -/
structure LogLine where
  format : String
  args : List LogArg
  deriving DecidableEq, Repr

/-- The state of the environment.
* `files`: the file system, a map from path to file (paths are compared as
  strings);
* `remote`: the bodies served by the HTTP client, by URL;
* `umask`: the process umask applied to newly created files;
* `faults`: the calls that fail for a reason of the environment (full disk,
  refused connection, permission, ...), by their position in the run;
* `trace`: the calls issued so far, oldest first;
* `logs`: the lines given to the logger, oldest first;
* `torn`: among the failing calls, those that fail after their file has been
  opened, by their position in the run, with the number of bytes written
  before the failure. -/
structure World where
  files : List (GoString × File)
  remote : List (GoString × GoString)
  umask : Nat
  faults : List Nat
  trace : List Event
  logs : List LogLine
  torn : List (Nat × Nat) := []
  deriving DecidableEq, Repr

/-- The file at `p`, if any. -/
def lookupFile (p : GoString) : List (GoString × File) → Option File
  | [] => none
  | (q, f) :: fs => if q = p then some f else lookupFile p fs

/-- The file system with `p` bound to `f`: in place when `p` exists, as a new
last entry otherwise. -/
def upsert (p : GoString) (f : File) : List (GoString × File) → List (GoString × File)
  | [] => [(p, f)]
  | (q, g) :: fs => if q = p then (q, f) :: fs else (q, g) :: upsert p f fs

/-- The file system without `p`. -/
def removeFile (p : GoString) (fs : List (GoString × File)) : List (GoString × File) :=
  fs.filter (fun e => e.1 ≠ p)

/-- The paths of the file system. -/
def World.paths (w : World) : List GoString :=
  w.files.map Prod.fst

/-- Whether the next call is one that the environment makes fail. -/
def World.faulty (w : World) : Bool :=
  w.faults.contains w.trace.length

/-- The world after the call `c` has been issued: its outcome is recorded and,
when it succeeded, the file system becomes `files`. -/
def World.step (w : World) (c : Call) (ok : Bool) (files : List (GoString × File)) : World :=
  { w with trace := w.trace ++ [⟨c, ok⟩], files := if ok then files else w.files }

/-- The call `logger.Printf(format, args...)`. -/
def World.printf (w : World) (format : String) (args : List LogArg) : World :=
  { w with logs := w.logs ++ [⟨format, args⟩] }

/-- Permission bits `perm` after the umask (`perm &^ umask`). -/
def applyUmask (perm umask : Nat) : Nat :=
  perm ^^^ (perm &&& umask)

/-- The mode of `name` after it has been created or truncated with `perm`. -/
def createdMode (name : GoString) (perm : Nat) (w : World) : Nat :=
  match lookupFile name w.files with
  | some f => f.mode
  | none => applyUmask perm w.umask

/-- Whether a call on the existing file `name` succeeds in `w`. -/
def World.canUse (w : World) (name : GoString) : Bool :=
  !w.faulty && (lookupFile name w.files).isSome

/-- Whether a call that creates or truncates `name` succeeds in `w`. -/
def World.canCreate (w : World) (name : GoString) : Bool :=
  !w.faulty && !name.isEmpty

/-- The bytes of the file at `name` (empty when there is none). -/
def World.contentOf (w : World) (name : GoString) : GoString :=
  match lookupFile name w.files with
  | some f => f.content
  | none => []

/-- The permission bits of the file at `name` (zero when there is none). -/
def World.modeOf (w : World) (name : GoString) : Nat :=
  match lookupFile name w.files with
  | some f => f.mode
  | none => 0

/-- The body the HTTP client is served at `u` (empty when there is none). -/
def World.bodyOf (w : World) (u : GoString) : GoString :=
  match w.remote.lookup u with
  | some body => body
  | none => []

/-- The call `chartRepo.Client.Get(u)`: the body served at `u`; it fails when
the environment makes it fail or nothing is served at `u`. -/
def httpGet (u : GoString) (w : World) : Except GoError GoString × World :=
  let c : Call := ⟨.httpGet, u⟩
  if !w.faulty && (w.remote.lookup u).isSome then (.ok (w.bodyOf u), w.step c true w.files)
  else (.error ⟨c⟩, w.step c false w.files)

/-- The bytes a failing `os.WriteFile(name, data, perm)`, issued next, leaves
at `name`: none when the open itself fails (as it does on an empty name), the
bytes written before the failure when the call fails after the open. -/
def World.tornBytes (w : World) (name data : GoString) : Option GoString :=
  if name.isEmpty then none
  else (w.torn.lookup w.trace.length).map (fun written => data.take written)

/-- The world after a failed `os.WriteFile(name, data, perm)`: the failure is
recorded; when the call failed after the open, `name` exists, created with
`perm` (before umask) or truncated, and holds the bytes written so far. -/
def World.failedWrite (w : World) (name data : GoString) (perm : Nat) : World :=
  { w.step ⟨.writeFile, name⟩ false w.files with
    files := match w.tornBytes name data with
      | some bytes => upsert name ⟨bytes, createdMode name perm w⟩ w.files
      | none => w.files }

/-- Go `os.WriteFile(name, data, perm)`: opens `name` with
`O_WRONLY|O_CREATE|O_TRUNC`, which creates it with `perm` (before umask) or
truncates it, writes `data` and closes.  A call that fails at the open leaves
the file system as it was; a call that fails later leaves the file with the
bytes written so far. -/
def osWriteFile (name data : GoString) (perm : Nat) (w : World) : Option GoError × World :=
  let c : Call := ⟨.writeFile, name⟩
  if w.canCreate name then
    (none, w.step c true (upsert name ⟨data, createdMode name perm w⟩ w.files))
  else (some ⟨c⟩, w.failedWrite name data perm)

/-- Go `os.ReadFile(name)`. -/
def osReadFile (name : GoString) (w : World) : Except GoError GoString × World :=
  let c : Call := ⟨.readFile, name⟩
  if w.canUse name then (.ok (w.contentOf name), w.step c true w.files)
  else (.error ⟨c⟩, w.step c false w.files)

/-- Go `os.Open(name)`; the handle is modelled by the path it was opened at. -/
def osOpen (name : GoString) (w : World) : Except GoError GoString × World :=
  let c : Call := ⟨.open, name⟩
  if w.canUse name then (.ok name, w.step c true w.files)
  else (.error ⟨c⟩, w.step c false w.files)

/-- Go `os.Create(name)`: creates `name` with mode `0666` (before umask) or
truncates it. -/
def osCreate (name : GoString) (w : World) : Except GoError GoString × World :=
  let c : Call := ⟨.create, name⟩
  if w.canCreate name then
    (.ok name, w.step c true (upsert name ⟨[], createdMode name 0o666 w⟩ w.files))
  else (.error ⟨c⟩, w.step c false w.files)

/-- Go `io.Copy(out, in)`: the bytes of `inp` appended to those of `out`. -/
def ioCopy (out inp : GoString) (w : World) : Option GoError × World :=
  let c : Call := ⟨.copy, out⟩
  if w.canUse inp && (lookupFile out w.files).isSome then
    (none, w.step c true
      (upsert out ⟨w.contentOf out ++ w.contentOf inp, w.modeOf out⟩ w.files))
  else (some ⟨c⟩, w.step c false w.files)

/-- Go `(*os.File).Close()`; its result is dropped by every caller here. -/
def fileClose (h : GoString) (w : World) : World :=
  w.step ⟨.close, h⟩ (!w.faulty) w.files

/-- Go `(*os.File).Sync()`. -/
def fileSync (h : GoString) (w : World) : Option GoError × World :=
  let c : Call := ⟨.sync, h⟩
  if !w.faulty then (none, w.step c true w.files)
  else (some ⟨c⟩, w.step c false w.files)

/-- Go `os.Stat(name)`, reduced to the mode it reports. -/
def osStat (name : GoString) (w : World) : Except GoError Nat × World :=
  let c : Call := ⟨.stat, name⟩
  if w.canUse name then (.ok (w.modeOf name), w.step c true w.files)
  else (.error ⟨c⟩, w.step c false w.files)

/-- Go `os.Chmod(name, mode)`. -/
def osChmod (name : GoString) (mode : Nat) (w : World) : Option GoError × World :=
  let c : Call := ⟨.chmod, name⟩
  if w.canUse name then
    (none, w.step c true (upsert name ⟨w.contentOf name, mode⟩ w.files))
  else (some ⟨c⟩, w.step c false w.files)

/-- Go `os.Remove(name)`. -/
def osRemove (name : GoString) (w : World) : Option GoError × World :=
  let c : Call := ⟨.remove, name⟩
  if w.canUse name then (none, w.step c true (removeFile name w.files))
  else (some ⟨c⟩, w.step c false w.files)

/-- The success flag of a result that carries a value. -/
def okE {α : Type} : Except GoError α → Bool
  | .ok _ => true
  | .error _ => false

/-- The success flag of a bare `error` result. -/
def okO : Option GoError → Bool
  | none => true
  | some _ => false

/-- The events a run from `w` to `w1` has added to the trace. -/
def newEvents (w w1 : World) : List Event :=
  w1.trace.drop w.trace.length

/-- The number of HTTP fetches among `evs` that succeeded. -/
def succeededFetches (evs : List Event) : Nat :=
  (evs.filter (fun e => e.call.op = .httpGet && e.ok)).length

/-- The paths present in `w1` that were not present in `w`. -/
def addedPaths (w w1 : World) : List GoString :=
  w1.paths.filter (fun p => !w.paths.contains p)

/-- The outcomes of the HTTP fetches among `evs`, in order. -/
def fetchOutcomes (evs : List Event) : List Bool :=
  (evs.filter (fun e => e.call.op = .httpGet)).map (fun e => e.ok)

/-- The paths of the `os.WriteFile` calls among `evs`, in order. -/
def writePaths (evs : List Event) : List GoString :=
  (evs.filter (fun e => e.call.op = .writeFile)).map (fun e => e.call.arg)

/-- The URLs of the HTTP fetches among `evs`, in order. -/
def fetchedURLs (evs : List Event) : List GoString :=
  (evs.filter (fun e => e.call.op = .httpGet)).map (fun e => e.call.arg)

/-- The calls among `evs` that failed. -/
def failedCalls (evs : List Event) : List Call :=
  (evs.filter (fun e => !e.ok)).map (fun e => e.call)

/-- The calls among `evs` that succeeded. -/
def succeededCalls (evs : List Event) : List Call :=
  (evs.filter (fun e => e.ok)).map (fun e => e.call)

/-! ## `service/get.go` -/

/-- The constant `indexFileName`. -/
def indexFileName : GoString := "index.yaml".toList

/-- The fields of helm `repo.Entry` the service reads. -/
structure RepoEntry where
  name : GoString
  url : GoString
  deriving DecidableEq, Repr

/-- The struct `GetService` (the logger lives in the `World`). -/
structure GetService where
  config : RepoEntry
  verbose : Bool
  ignoreErrors : Bool
  newRootURL : GoString
  allVersions : Bool
  chartName : GoString
  chartVersion : GoString
  indexFilePath : GoString
  deriving DecidableEq, Repr

/-- The fields of helm `repo.ChartVersion` the service reads (`res.Chart`). -/
structure ChartVersion where
  name : GoString
  version : GoString
  urls : List GoString
  deriving DecidableEq, Repr

/-- The fields of helm `search.Result` the service reads. -/
structure SearchResult where
  name : GoString
  chart : ChartVersion
  deriving DecidableEq, Repr

/-- The outcomes of the helm library calls `Get` makes before its download
loop: `repo.NewChartRepository`, `DownloadIndexFile` (the path of the cached
index), `repo.LoadIndexFile`, and `AddRepo` followed by `Search` (its first
argument is the `all` flag of `AddRepo`, its second the regular expression). -/
structure HelmRepo where
  newChartRepository : Option GoError
  downloadIndexFile : Except GoError GoString
  loadIndexFile : Option GoError
  search : Bool → GoString → Except GoError (List SearchResult)

/-- The method `GetService.writeFile`. -/
def GetService.writeFile (g : GetService) (name content : GoString) (w : World) :
    Option GoError × World :=
  match osWriteFile name content 0o666 w with
  | (err, w) =>
    if g.ignoreErrors then
      (none, w.printf "cannot write files %s: %s" [.str name, .err err])
    else
      (err, w)

/-- The function `moveFile`.  `in.Close()` follows `io.Copy` on both of its
outcomes; the deferred calls (`os.Remove(src)`, then `out.Close()`) run, last
registered first, at each return that follows their registration. -/
def moveFile (src dst : GoString) (w : World) : Option GoError × World :=
  if src = dst then (none, w)
  else
    match osOpen src w with
    | (.error err, w) => (some err, w)
    | (.ok inp, w) =>
      match osCreate dst w with
      | (.error err, w) => (some err, fileClose inp w)
      | (.ok out, w) =>
        match ioCopy out inp w with
        | (some err, w) => (some err, fileClose out (fileClose inp w))
        | (none, w) =>
          match fileSync out (fileClose inp w) with
          | (some err, w) => (some err, fileClose out (osRemove src w).2)
          | (none, w) =>
            match osStat src w with
            | (.error err, w) => (some err, fileClose out (osRemove src w).2)
            | (.ok mode, w) =>
              match osChmod dst mode w with
              | (err, w) => (err, fileClose out (osRemove src w).2)

/-- The method `GetService.prepareIndexFile`. -/
def GetService.prepareIndexFile (g : GetService) (w : World) : Option GoError × World :=
  let indexPath := pathJoin [g.config.name, indexFileName]
  if g.newRootURL ≠ [] then
    match osReadFile g.indexFilePath w with
    | (.error err, w) => (some err, w)
    | (.ok indexContent, w) =>
      let content := bytesReplace indexContent g.config.url g.newRootURL (-1)
      match g.writeFile g.indexFilePath content w with
      | (some err, w) => (some err, w)
      | (none, w) => moveFile g.indexFilePath indexPath w
  else
    moveFile g.indexFilePath indexPath w

/-- The archive file name `fmt.Sprintf("%s-%s.tgz", name, version)`. -/
def chartFileName (name version : GoString) : GoString :=
  name ++ "-".toList ++ version ++ ".tgz".toList

/-- The inner loop of `Get`, `for _, u := range res.Chart.URLs`: the error it
returns with, if any, and the world it leaves. -/
def GetService.downloadURLs (g : GetService) (res : SearchResult) :
    List GoString → World → Option GoError × World
  | [], w => (none, w)
  | u :: us, w =>
    match httpGet u w with
    | (.error err, w) =>
      if g.ignoreErrors then
        g.downloadURLs res us
          (w.printf "WARNING: processing chart %s(%s) - %s"
            [.str res.name, .str res.chart.version, .err (some err)])
      else (some err, w)
    | (.ok b, w) =>
      let chartPath := pathJoin [g.config.name, chartFileName res.chart.name res.chart.version]
      match g.writeFile chartPath b w with
      | (some err, w) => (some err, w)
      | (none, w) => g.downloadURLs res us w

/-- Whether the outer loop of `Get` passes its two `continue` guards on `res`. -/
def GetService.selects (g : GetService) (res : SearchResult) : Bool :=
  !(g.chartName ≠ [] && res.chart.name ≠ g.chartName)
    && !(g.chartVersion ≠ [] && res.chart.version ≠ g.chartVersion)

/-- The URLs of the results the two guards let through, in loop order. -/
def GetService.selectedURLs (g : GetService) (results : List SearchResult) : List GoString :=
  ((results.filter g.selects).map (fun res => res.chart.urls)).flatten

/-- The path `path.Join(g.config.Name, chartFileName)` at which the loop
writes the archive of `res`. -/
def GetService.chartPath (g : GetService) (res : SearchResult) : GoString :=
  pathJoin [g.config.name, chartFileName res.chart.name res.chart.version]

/-- The (selected entry, URL) pairs, in loop order. -/
def GetService.selectedPairs (g : GetService) (results : List SearchResult) :
    List (SearchResult × GoString) :=
  ((results.filter g.selects).map (fun res => res.chart.urls.map (fun u => (res, u)))).flatten

/-- The calls the loop is to issue for one (entry, URL) pair: the fetch of the
URL and, when the fetch succeeded, the write of the archive of the entry. -/
def GetService.callsOfPair (g : GetService) (pair : SearchResult × GoString)
    (fetched : Bool) : List Call :=
  ⟨.httpGet, pair.2⟩ :: (if fetched then [⟨.writeFile, g.chartPath pair.1⟩] else [])

/-- The calls the loop is to issue for the pairs, given the outcome of the
fetch of each. -/
def GetService.expectedCalls (g : GetService) (pairs : List (SearchResult × GoString))
    (outcomes : List Bool) : List Call :=
  ((pairs.zip outcomes).map (fun x => g.callsOfPair x.1 x.2)).flatten

/-- The pairs among `pairs` whose fetch did not fail, given the outcome of the
fetch of each. -/
def fetchedPairs (pairs : List (SearchResult × GoString)) (outcomes : List Bool) :
    List (SearchResult × GoString) :=
  ((pairs.zip outcomes).filter (fun x => x.2)).map (fun x => x.1)

/-- The outer loop of `Get`, `for _, res := range results`. -/
def GetService.downloadResults (g : GetService) :
    List SearchResult → World → Option GoError × World
  | [], w => (none, w)
  | res :: rest, w =>
    if g.chartName ≠ [] ∧ res.chart.name ≠ g.chartName then g.downloadResults rest w
    else if g.chartVersion ≠ [] ∧ res.chart.version ≠ g.chartVersion then g.downloadResults rest w
    else
      match g.downloadURLs res res.chart.urls w with
      | (some err, w) => (some err, w)
      | (none, w) => g.downloadResults rest w

/-- The method `GetService.Get`; `w` is the world once the helm library calls
that precede the loop have run. -/
def GetService.Get (g : GetService) (h : HelmRepo) (w : World) : Option GoError × World :=
  match h.newChartRepository with
  | some err => (some err, w)
  | none =>
    match h.downloadIndexFile with
    | .error err => (some err, w)
    | .ok indexFilePath =>
      match h.loadIndexFile with
      | some err => (some err, w)
      | none =>
        match h.search (g.allVersions || g.chartVersion ≠ [])
            ("^.*".toList ++ g.chartName ++ ".*".toList) with
        | .error err => (some err, w)
        | .ok results =>
          match g.downloadResults results w with
          | (some err, w) => (some err, w)
          | (none, w) => { g with indexFilePath := indexFilePath }.prepareIndexFile w

/-! ## `service/inspectImages.go`: the value tree -/

mutual
/-- A Go value held in a `map[string]interface{}` of chart values: the nil
interface, a nested map (of Go type `chartutil.Values` when `isValues`, of Go
type `map[string]interface{}` otherwise), a sequence `[]interface{}`, or any
other value, held as a scalar. -/
inductive Value
  | null
  | scalar (s : GoString)
  | seq (xs : ValueList)
  | map (isValues : Bool) (entries : Entries)
/-- The elements of a sequence. -/
inductive ValueList
  | nil
  | cons (v : Value) (vs : ValueList)
/-- A Go `map[string]interface{}`, as the list of its entries. -/
inductive Entries
  | nil
  | cons (key : GoString) (v : Value) (rest : Entries)
end

/-- The function `cleanUp`: every entry of the map is visited once; a value of
one of the two map types is replaced by the result of the recursive call, whose
Go type is `map[string]interface{}`; a nil value is replaced by the empty
string; any other value is stored back as it is. -/
def cleanUp : Entries → Entries
  | .nil => .nil
  | .cons n v rest =>
    match v with
    | .map _ m => .cons n (.map false (cleanUp m)) (cleanUp rest)
    | .null => .cons n (.scalar []) (cleanUp rest)
    | .scalar s => .cons n (.scalar s) (cleanUp rest)
    | .seq xs => .cons n (.seq xs) (cleanUp rest)

mutual
/-- Whether a null stands at some position of the value. -/
def Value.hasNull : Value → Bool
  | .null => true
  | .scalar _ => false
  | .seq xs => xs.hasNull
  | .map _ es => es.hasNull
/-- Whether a null stands at some position of the sequence. -/
def ValueList.hasNull : ValueList → Bool
  | .nil => false
  | .cons v vs => v.hasNull || vs.hasNull
/-- Whether a null stands at some position of the map. -/
def Entries.hasNull : Entries → Bool
  | .nil => false
  | .cons _ v rest => v.hasNull || rest.hasNull
end

/-- Whether a null stands in a sequence that is the value of a key of the map
or of a map nested in it through maps only. -/
def Entries.hasNullInSeq : Entries → Bool
  | .nil => false
  | .cons _ v rest =>
    (match v with
      | .seq xs => xs.hasNull
      | .map _ m => m.hasNullInSeq
      | _ => false) || rest.hasNullInSeq

/-- The specification of "the same tree with the nulls of its maps replaced by
empty strings": `CleanedFrom a b` holds when `b` has the keys of `a` in the
same order and, key by key, an empty string where `a` has a null, the same
scalar where `a` has a scalar, the very same sequence where `a` has a sequence,
and a plain map cleaned from the map of `a` where `a` has a map. -/
def Entries.CleanedFrom : Entries → Entries → Prop
  | .nil, b => b = .nil
  | .cons k v rest, b =>
    match b with
    | .nil => False
    | .cons k2 v2 rest2 =>
      k2 = k ∧ rest.CleanedFrom rest2 ∧
        (match v with
          | .null => v2 = .scalar []
          | .scalar s => v2 = .scalar s
          | .seq xs => v2 = .seq xs
          | .map _ m =>
            match v2 with
            | .map t2 m2 => t2 = false ∧ m.CleanedFrom m2
            | _ => False)

/-! ## `service/inspectImages.go`: the environment -/

/-- A non-nil Go `error` met by the image service, identified by its message. -/
structure ImagesError where
  msg : String
  deriving DecidableEq, Repr, Inhabited

/-- One `logger.Printf` call of the image service: format, string arguments and
error argument. -/
structure ImagesLogLine where
  format : String
  args : List GoString
  err : Option ImagesError
  deriving DecidableEq, Repr, Inhabited

/-- The part of `os.FileInfo` the service reads: `Name()` and `IsDir()`. -/
structure FileInfo where
  name : GoString
  isDir : Bool
  deriving DecidableEq, Repr, Inhabited

mutual
/-- What `filepath.Walk` meets at a path: a file that is not a directory, a
directory with its entries in the order of `readDirNames`, a directory whose
names cannot be read, or an entry on which `Lstat` fails. -/
inductive Node
  | file
  | dir (entries : DirEntries)
  | unreadable (err : ImagesError)
  | broken (err : ImagesError)
/-- The entries of a directory: name and node. -/
inductive DirEntries
  | nil
  | cons (name : GoString) (node : Node) (rest : DirEntries)
end

/-- A chart loaded by the helm library, as an opaque handle. -/
abbrev Chart := GoString

/-- The collaborators of the image service, which only reads its environment:
`os.Stat` (reduced to `IsDir()`), the file tree `filepath.Walk` finds at a
root, the helm library (`loader.Load`, `chartutil.ToRenderValues`, and
`engine.Render` with its `LintMode`), and `formatter.Output`.  The helm
library never returns the sentinels `filepath.SkipDir` and `filepath.SkipAll`,
so they play no part in the walk. -/
structure ImagesEnv where
  stat : GoString → Except ImagesError Bool
  tree : GoString → Node
  load : GoString → Except ImagesError Chart
  toRenderValues : Chart → Except ImagesError Entries
  render : Bool → Chart → Entries → Except ImagesError (List (GoString × GoString))
  output : GoString → Option ImagesError

/-- Go `strings.Contains`: `Index(s, substr) >= 0`. -/
def stringsContains (s substr : GoString) : Bool :=
  (index s substr).isSome

/-- The function `basename` of package `os`, which gives `FileInfo.Name()`:
trailing slashes are removed, but not the first character, then everything up
to the last slash that stands before the last character. -/
def basename (name : GoString) : GoString :=
  let stripped := (name.reverse.dropWhile (· = '/')).reverse
  let core := if stripped = [] then name.take 1 else stripped
  (core.dropLast.reverse.takeWhile (· ≠ '/')).reverse ++ core.drop (core.length - 1)

/-- The number of bytes of the UTF-8 encoding of a string. -/
def byteLength (s : GoString) : Nat :=
  (s.map Char.utf8Size).sum

/-- The loop `for scanner.Scan()` over the raw lines of a text (the pieces
between line feeds, the last one only when it is not empty): a line longer
than the 65535 bytes that fit the buffer of `bufio.Scanner` ends the scan;
`scanner.Text()` is the line without one trailing carriage return. -/
def scanTokens : List GoString → List GoString
  | [] => []
  | [last] =>
    if last = [] ∨ 65535 < byteLength last then []
    else [if last.getLast? = some '\r' then last.dropLast else last]
  | line :: rest =>
    if 65535 < byteLength line then []
    else (if line.getLast? = some '\r' then line.dropLast else line) :: scanTokens rest

/-- The lines `bufio.NewScanner(strings.NewReader(t))` yields. -/
def scanLines (t : GoString) : List GoString :=
  scanTokens (t.splitOn '\n')

/-- The function type `filepath.WalkFunc`, with the state `σ` its closure acts
on. -/
abbrev WalkFunc (σ : Type) :=
  GoString → Option FileInfo → Option ImagesError → σ → Option ImagesError × σ

mutual
/-- The function `walk` of package `filepath` at `path`, whose `Lstat` gave the
name `name` and the node. -/
def walk {σ : Type} (fn : WalkFunc σ) (path name : GoString) :
    Node → σ → Option ImagesError × σ
  | .file, s => fn path (some ⟨name, false⟩) none s
  | .unreadable err, s => fn path (some ⟨name, true⟩) (some err) s
  | .broken err, s => fn path none (some err) s
  | .dir entries, s =>
    match fn path (some ⟨name, true⟩) none s with
    | (some err1, s) => (some err1, s)
    | (none, s) => walkNames fn path entries s
/-- The loop `for _, name := range names` of `walk`. -/
def walkNames {σ : Type} (fn : WalkFunc σ) (path : GoString) :
    DirEntries → σ → Option ImagesError × σ
  | .nil, s => (none, s)
  | .cons name node rest, s =>
    match walk fn (pathJoin [path, name]) name node s with
    | (some err, s) => (some err, s)
    | (none, s) => walkNames fn path rest s
end

/-- Go `filepath.Walk(root, fn)` on the tree found at `root`. -/
def filepathWalk {σ : Type} (root : GoString) (tree : Node) (fn : WalkFunc σ) (s : σ) :
    Option ImagesError × σ :=
  walk fn root (basename root) tree s

/-- The struct `ImagesService`.  `logs` holds the lines given to the logger and
`loaded` the paths given to `loader.Load`, both oldest first; the formatter
lives in the `ImagesEnv`. -/
structure ImagesService where
  target : GoString
  verbose : Bool
  ignoreErrors : Bool
  exitWithErrors : Bool
  buffer : GoString
  logs : List ImagesLogLine
  loaded : List GoString
  deriving DecidableEq, Repr, Inhabited

/-- The call `i.logger.Printf(format, args...)`. -/
def ImagesService.printf (i : ImagesService) (format : String) (args : List GoString)
    (err : Option ImagesError) : ImagesService :=
  { i with logs := i.logs ++ [⟨format, args, err⟩] }

/-- The loop of `processTarget` over the lines of one rendered text: a line
that contains `image:` is sanitized and appended to the buffer. -/
def ImagesService.scanText (i : ImagesService) : List GoString → ImagesService
  | [] => i
  | line :: rest =>
    if stringsContains line "image:".toList then
      ImagesService.scanText
        { i with buffer := i.buffer ++ (sanitizeImageString line ++ "\n".toList) } rest
    else ImagesService.scanText i rest

/-- The loop `for _, t := range rendered` of `processTarget`. -/
def ImagesService.scanRendered (i : ImagesService) :
    List (GoString × GoString) → ImagesService
  | [] => i
  | (_, t) :: rest => ImagesService.scanRendered (i.scanText (scanLines t)) rest

/-- The method `ImagesService.processTarget`. -/
def ImagesService.processTarget (i : ImagesService) (env : ImagesEnv) (target : GoString) :
    Option ImagesError × ImagesService :=
  let i := if i.verbose then i.printf "processing target: %s" [target] none else i
  let i := { i with loaded := i.loaded ++ [target] }
  match env.load target with
  | .error err => (some err, i)
  | .ok cht =>
    match env.toRenderValues cht with
    | .error err => (some err, i.printf "error: cannot render values: %s" [] (some err))
    | .ok vals =>
      let vals := cleanUp vals
      match env.render i.ignoreErrors cht vals with
      | .error err => (some err, i.printf "error: cannot render chart: %s" [] (some err))
      | .ok rendered => (none, i.scanRendered rendered)

/-- The function literal given to `filepath.Walk` in `processDirectory`; its
state is the service and the captured variable `hasTgzCharts`. -/
def ImagesService.walkFn (env : ImagesEnv) (target : GoString) :
    WalkFunc (ImagesService × Bool)
  | dir, info, err, (i, hasTgzCharts) =>
    match err, info with
    | some err, _ =>
      (some err, (i.printf "error: cannot access a dir %q: %v\n" [dir] (some err), hasTgzCharts))
    | none, none => (none, (i, hasTgzCharts))
    | none, some info =>
      if !info.isDir && stringsContains info.name ".tgz".toList then
        match i.processTarget env (pathJoin [target, info.name]) with
        | (some err, i) =>
          if i.ignoreErrors then (none, ({ i with exitWithErrors := true }, true))
          else (some err, (i.printf "error: cannot load chart: %s" [] (some err), true))
        | (none, i) => (none, (i, true))
      else (none, (i, hasTgzCharts))

/-- The method `ImagesService.processDirectory`. -/
def ImagesService.processDirectory (i : ImagesService) (env : ImagesEnv) (target : GoString) :
    Option ImagesError × ImagesService :=
  match env.stat i.target with
  | .error err => (some err, i.printf "error: cannot read target: %s" [i.target] none)
  | .ok isDir =>
    if !isDir then
      (some ⟨"error: inspectImages: processDirectory: target not a directory"⟩, i)
    else
      match i.processTarget env target with
      | (none, i) => (none, i)
      | (some e, i) =>
        match filepathWalk target (env.tree target) (ImagesService.walkFn env target)
            (i, false) with
        | (some err, (i, _)) =>
          (some err, i.printf "error walking the path %q: %v\n" [target] (some err))
        | (none, (i, hasTgzCharts)) =>
          if !hasTgzCharts then
            (some e, i.printf "error: cannot load chart: %s" [] (some e))
          else (none, i)

/-- The method `ImagesService.Images`. -/
def ImagesService.Images (i : ImagesService) (env : ImagesEnv) :
    Option ImagesError × ImagesService :=
  match env.stat i.target with
  | .error err => (some err, i.printf "error: cannot read target: %s" [i.target] none)
  | .ok isDir =>
    match (if isDir then i.processDirectory env i.target
      else i.processTarget env i.target) with
    | (some err, i) =>
      (some err, i.printf "error: processing target %s: %s" [i.target] (some err))
    | (none, i) =>
      match env.output i.buffer with
      | some err => (some err, i.printf "writing output: %s" [] (some err))
      | none => (none, i)

mutual
/-- The paths at which the walk of a node meets a file that is not a directory
and whose name contains `.tgz`, in the order of the walk. -/
def Node.archivePaths (path name : GoString) : Node → List GoString
  | .file => if stringsContains name ".tgz".toList then [path] else []
  | .dir entries => entries.archivePaths path
  | .unreadable _ => []
  | .broken _ => []
/-- The archive paths below the directory at `path`. -/
def DirEntries.archivePaths (path : GoString) : DirEntries → List GoString
  | .nil => []
  | .cons name node rest =>
    node.archivePaths (pathJoin [path, name]) name ++ rest.archivePaths path
end

mutual
/-- Whether the walk of a node meets an entry it cannot read. -/
def Node.hasWalkError : Node → Bool
  | .file => false
  | .dir entries => entries.hasWalkError
  | .unreadable _ => true
  | .broken _ => true
/-- Whether the walk of the entries meets an entry it cannot read. -/
def DirEntries.hasWalkError : DirEntries → Bool
  | .nil => false
  | .cons _ node rest => node.hasWalkError || rest.hasWalkError
end

/-! ## Concrete inputs -/

/-- A world with the cached index file and two archives served over HTTP;
`faults` lists the calls the environment makes fail. -/
def exWorld (faults : List Nat) : World :=
  { files := [("/cache/index.yaml".toList,
      ⟨"urls: http://h/c-1.tgz http://h/d-2.tgz".toList, 0o600⟩)],
    remote := [("http://h/c-1.tgz".toList, "AAA".toList),
      ("http://m/c-1.tgz".toList, "AAA".toList)],
    umask := 0o022, faults := faults, trace := [], logs := [] }

/-- The world `exWorld [1]` whose failing call, the second of the run, fails
after its file has been opened and before any byte is written. -/
def exTornWorld : World :=
  { exWorld [1] with torn := [(1, 0)] }

/-- A service mirroring `http://h` into `/d`. -/
def exService (ignoreErrors : Bool) (newRootURL chartName chartVersion : String) : GetService :=
  { config := ⟨"/d".toList, "http://h".toList⟩, verbose := false, ignoreErrors := ignoreErrors,
    newRootURL := newRootURL.toList, allVersions := false, chartName := chartName.toList,
    chartVersion := chartVersion.toList, indexFilePath := "/cache/index.yaml".toList }

/-- A search result: chart `name` at `version` with its download URLs. -/
def exResult (name version : String) (urls : List String) : SearchResult :=
  ⟨("repo/" ++ name).toList, ⟨name.toList, version.toList, urls.map String.toList⟩⟩

/-- The helm library calls all succeed and the search returns `results`. -/
def exHelm (results : List SearchResult) : HelmRepo :=
  { newChartRepository := none, downloadIndexFile := .ok "/cache/index.yaml".toList,
    loadIndexFile := none, search := fun _ _ => .ok results }

/-- An environment of the image service: `/charts` is a directory with the
given tree, only the chart at `good` loads, and it renders one manifest. -/
def exImagesEnv (tree : Node) (good : String) : ImagesEnv :=
  { stat := fun p => .ok (p = "/charts".toList),
    tree := fun _ => tree,
    load := fun p => if p = good.toList then .ok p else .error ⟨"cannot load " ++ String.mk p⟩,
    toRenderValues := fun _ => .ok .nil,
    render := fun _ _ _ =>
      .ok [("templates/deployment.yaml".toList, "        image: \"nginx:1.14.2\"\n".toList)],
    output := fun _ => none }

/-- An image service on the target `/charts`. -/
def exImages (ignoreErrors : Bool) : ImagesService :=
  { target := "/charts".toList, verbose := false, ignoreErrors := ignoreErrors,
    exitWithErrors := false, buffer := [], logs := [], loaded := [] }

/-- The tree of `/charts` with one subdirectory, which cannot be read. -/
def exUnreadableTree : Node :=
  .dir (.cons "sub".toList (.unreadable ⟨"open /charts/sub: permission denied"⟩) .nil)

/-- The tree of `/charts` with one archive, in the subdirectory `sub`. -/
def exNestedTree : Node :=
  .dir (.cons "sub".toList (.dir (.cons "app-1.0.0.tgz".toList .file .nil)) .nil)

/-- The tree of `/charts` with one archive, directly in it. -/
def exFlatTree : Node :=
  .dir (.cons "app-1.0.0.tgz".toList .file .nil)

/-! ## Lemmas on the library model -/

theorem index_singleton_cons (q c : Char) (s : GoString) :
    index (c :: s) [q] = if q = c then some 0 else (index s [q]).map (· + 1) := by
  simp [index, List.isPrefixOf]

theorem index_singleton_nil (q : Char) : index [] [q] = none := by
  simp [index]

theorem replaceLoop_singleton_nil (q : Char) (n : Nat) (f : Bool) :
    replaceLoop [q] [] n f [] = [] := by
  cases n <;> simp [replaceLoop, index]

theorem replaceLoop_singleton_cons (q c : Char) (n : Nat) (f : Bool) (s : GoString) :
    replaceLoop [q] [] (n + 1) f (c :: s)
      = if q = c then replaceLoop [q] [] n false s
        else c :: replaceLoop [q] [] (n + 1) f s := by
  by_cases h : q = c
  · simp [replaceLoop, index_singleton_cons, h]
  · simp only [replaceLoop, index_singleton_cons, h, if_false]
    cases hi : index s [q] with
    | none => simp
    | some j => simp [List.take, List.drop]

theorem replaceLoop_singleton_erase (q : Char) (n : Nat) (f : Bool) (s : GoString) :
    replaceLoop [q] [] (n + 1) f s = replaceLoop [q] [] n false (s.erase q) := by
  induction s with
  | nil => simp [replaceLoop_singleton_nil]
  | cons c s ih =>
    rw [replaceLoop_singleton_cons]
    by_cases h : q = c
    · subst h; simp
    · have hc : (c == q) = false := by simpa using fun h2 => h h2.symm
      rw [if_neg h, List.erase_cons, hc, ih]
      cases n with
      | zero => simp [replaceLoop]
      | succ k => simp only [Bool.false_eq_true, if_false]; rw [replaceLoop_singleton_cons, if_neg h]

theorem index_singleton_none (q : Char) (s : GoString) (h : index s [q] = none) : q ∉ s := by
  induction s with
  | nil => simp
  | cons c s ih =>
    rw [index_singleton_cons] at h
    by_cases hq : q = c
    · simp [hq] at h
    · simp only [hq, if_false, Option.map_eq_none'] at h
      simp [hq, ih h]

theorem index_singleton_some (q : Char) (s : GoString) (i : Nat) (h : index s [q] = some i) :
    i < s.length ∧ s.count q = 1 + (s.drop (i + 1)).count q := by
  induction s generalizing i with
  | nil => simp [index] at h
  | cons c s ih =>
    rw [index_singleton_cons] at h
    by_cases hq : q = c
    · subst hq
      simp at h
      subst h
      simp [Nat.add_comm]
    · simp only [hq, if_false, Option.map_eq_some'] at h
      obtain ⟨j, hj, rfl⟩ := h
      obtain ⟨h1, h2⟩ := ih j hj
      have hc : (c == q) = false := by simpa using fun h2 => hq h2.symm
      refine ⟨by simpa using h1, ?_⟩
      rw [List.count_cons, hc]
      simpa using h2

theorem countLoop_singleton (q : Char) (fuel : Nat) (s : GoString) (n : Nat)
    (hf : s.length < fuel) : countLoop [q] fuel s n = n + s.count q := by
  induction fuel generalizing s n with
  | zero => omega
  | succ fuel ih =>
    unfold countLoop
    cases hi : index s [q] with
    | none =>
      have := index_singleton_none q s hi
      simp [List.count_eq_zero_of_not_mem this]
    | some i =>
      obtain ⟨h1, h2⟩ := index_singleton_some q s i hi
      simp only [List.length_singleton]
      rw [ih _ _ (by simp; omega), h2]
      omega

theorem count_singleton (q : Char) (s : GoString) : count s [q] = s.count q := by
  simp [count, countLoop_singleton q (s.length + 1) s 0 (by omega)]

/-- Go `strings.Replace(s, q, "", 2)` for a one-character `q` removes the first
two occurrences of `q`. -/
theorem stringsReplace_singleton_two (q : Char) (s : GoString) :
    stringsReplace s [q] [] 2 = (s.erase q).erase q := by
  unfold stringsReplace
  simp only [count_singleton]
  have h0 : ¬ (([q] : GoString) = [] ∨ (2 : Int) = 0) := by simp
  rw [if_neg h0]
  by_cases hm : s.count q = 0
  · have : q ∉ s := List.count_eq_zero.mp hm
    simp [hm, List.erase_of_not_mem this]
  · simp only [hm, if_false]
    by_cases h1 : s.count q = 1
    · have h2 : q ∉ s.erase q := by
        apply List.count_eq_zero.mp
        rw [List.count_erase_self, h1]
      simp [h1, replaceLoop_singleton_erase, replaceLoop, List.erase_of_not_mem h2]
    · have h2 : ¬ ((2 : Int) < 0 ∨ ((s.count q : Nat) : Int) < 2) := by omega
      rw [if_neg h2]
      have h3 : (2 : Int).toNat = 0 + 1 + 1 := rfl
      rw [h3, replaceLoop_singleton_erase, replaceLoop_singleton_erase]
      rfl

theorem trimSpace_eq (s : GoString) :
    trimSpace s = (s.dropWhile isSpace).rdropWhile isSpace := rfl

theorem trimSpace_length_le (s : GoString) : (trimSpace s).length ≤ s.length := by
  rw [trimSpace_eq]
  exact le_trans (List.rdropWhile_prefix isSpace _).length_le
    (List.dropWhile_suffix isSpace).length_le

theorem trimSpace_idem (s : GoString) : trimSpace (trimSpace s) = trimSpace s := by
  have hfix : List.dropWhile isSpace (trimSpace s) = trimSpace s := by
    rw [List.dropWhile_eq_self_iff]
    intro hl
    have hpre : trimSpace s <+: s.dropWhile isSpace := List.rdropWhile_prefix isSpace _
    have hlen : 0 < (s.dropWhile isSpace).length := lt_of_lt_of_le hl hpre.length_le
    have h0 := List.dropWhile_get_zero_not isSpace s hlen
    have heq : (trimSpace s)[0] = (s.dropWhile isSpace)[0] := hpre.getElem hl
    simpa [List.get_eq_getElem, heq] using h0
  conv_lhs => rw [trimSpace_eq, hfix]
  rw [trimSpace_eq]
  exact List.rdropWhile_idempotent isSpace _

theorem trimPrefix_length_le (s pre : GoString) : (trimPrefix s pre).length ≤ s.length := by
  unfold trimPrefix
  split <;> simp

theorem trimPrefix_of_not (s pre : GoString) (h : hasPrefix s pre = false) :
    trimPrefix s pre = s := by
  simp [trimPrefix, h]

theorem trimPrefix_length_of_prefix (s pre : GoString) (h : hasPrefix s pre = true) :
    (trimPrefix s pre).length + pre.length = s.length := by
  have hp : pre <+: s := by simpa [hasPrefix] using h
  have := hp.length_le
  simp [trimPrefix, h]
  omega

theorem erase_erase_length_le (q : Char) (s : GoString) :
    ((s.erase q).erase q).length ≤ s.length := by
  have h1 := List.length_erase_le q s
  have h2 := List.length_erase_le q (s.erase q)
  omega

theorem erase_erase_length_lt (q : Char) (s : GoString) (h : q ∈ s) :
    ((s.erase q).erase q).length < s.length := by
  have h1 := List.length_erase_of_mem h
  have h2 := List.length_erase_le q (s.erase q)
  have h3 : 0 < s.length := List.length_pos_of_mem h
  omega

theorem sanitizeImageString_eq (s : GoString) :
    sanitizeImageString s
      = trimSpace (trimPrefix (trimSpace (trimPrefix (trimSpace ((s.erase dquote).erase dquote))
          ['-'])) "image: ".toList) := by
  show trimSpace (trimPrefix (trimSpace (trimPrefix (trimSpace (stringsReplace s [dquote] [] 2))
          ['-'])) "image: ".toList) = _
  rw [stringsReplace_singleton_two]

theorem sanitizeImageString_trimmed (s : GoString) :
    trimSpace (sanitizeImageString s) = sanitizeImageString s := by
  rw [sanitizeImageString_eq, trimSpace_idem]

/-- A sanitized string that holds no quote and starts with neither marker is a
fixed point of the sanitization. -/
theorem sanitizeImageString_fixed (r : GoString) (ht : trimSpace r = r) (hq : dquote ∉ r)
    (hd : hasPrefix r ['-'] = false) (hi : hasPrefix r "image: ".toList = false) :
    sanitizeImageString r = r := by
  rw [sanitizeImageString_eq, List.erase_of_not_mem hq, List.erase_of_not_mem hq, ht,
    trimPrefix_of_not r _ hd, ht, trimPrefix_of_not r _ hi, ht]

/-- Conversely, every step of the sanitization only shortens, so a fixed point
holds no quote and starts with neither marker. -/
theorem sanitizeImageString_fixed_inv (r : GoString) (h : sanitizeImageString r = r) :
    dquote ∉ r ∧ hasPrefix r ['-'] = false ∧ hasPrefix r "image: ".toList = false := by
  rw [sanitizeImageString_eq] at h
  obtain ⟨r1, hr1⟩ : ∃ r1, r1 = (r.erase dquote).erase dquote := ⟨_, rfl⟩
  obtain ⟨r2, hr2⟩ : ∃ r2, r2 = trimSpace r1 := ⟨_, rfl⟩
  obtain ⟨r3, hr3⟩ : ∃ r3, r3 = trimPrefix r2 ['-'] := ⟨_, rfl⟩
  obtain ⟨r4, hr4⟩ : ∃ r4, r4 = trimSpace r3 := ⟨_, rfl⟩
  obtain ⟨r5, hr5⟩ : ∃ r5, r5 = trimPrefix r4 "image: ".toList := ⟨_, rfl⟩
  rw [← hr1, ← hr2, ← hr3, ← hr4, ← hr5] at h
  have hlen : (trimSpace r5).length = r.length := congrArg List.length h
  have l1 : r1.length ≤ r.length := hr1 ▸ erase_erase_length_le _ r
  have l2 : r2.length ≤ r1.length := hr2 ▸ trimSpace_length_le r1
  have l3 : r3.length ≤ r2.length := hr3 ▸ trimPrefix_length_le r2 _
  have l4 : r4.length ≤ r3.length := hr4 ▸ trimSpace_length_le r3
  have l5 : r5.length ≤ r4.length := hr5 ▸ trimPrefix_length_le r4 _
  have l6 : (trimSpace r5).length ≤ r5.length := trimSpace_length_le r5
  have hq : dquote ∉ r := by
    intro hmem
    have := erase_erase_length_lt _ r hmem
    rw [← hr1] at this
    omega
  have e1 : r1 = r := by rw [hr1, List.erase_of_not_mem hq, List.erase_of_not_mem hq]
  have ht : trimSpace r = r := by
    have := trimSpace_idem r5
    rw [h] at this
    exact this
  have e2 : r2 = r := by rw [hr2, e1, ht]
  have hd : hasPrefix r ['-'] = false := by
    by_contra hc
    have hc2 : hasPrefix r2 ['-'] = true := by rw [e2]; simpa using hc
    have := trimPrefix_length_of_prefix r2 _ hc2
    rw [← hr3] at this
    simp only [List.length_singleton] at this
    omega
  have e3 : r3 = r := by rw [hr3, e2, trimPrefix_of_not r _ hd]
  have e4 : r4 = r := by rw [hr4, e3, ht]
  have hi : hasPrefix r "image: ".toList = false := by
    by_contra hc
    have hc2 : hasPrefix r4 "image: ".toList = true := by rw [e4]; simpa using hc
    have := trimPrefix_length_of_prefix r4 _ hc2
    rw [← hr5] at this
    have h7 : "image: ".toList.length = 7 := rfl
    omega
  exact ⟨hq, hd, hi⟩

/-! ## Lemmas on the root URL rewrite -/

theorem substituteAll_skip (old new : GoString) (k : Nat) (s : GoString) :
    substituteAll old new k s = substituteAll old new 0 (s.drop k) := by
  induction k generalizing s with
  | zero => simp
  | succ k ih =>
    cases s with
    | nil => simp [substituteAll]
    | cons c s => simp [substituteAll, ih]

theorem occurrences_skip (old : GoString) (k : Nat) (s : GoString) :
    occurrences old k s = occurrences old 0 (s.drop k) := by
  induction k generalizing s with
  | zero => simp
  | succ k ih =>
    cases s with
    | nil => simp [occurrences]
    | cons c s => simp [occurrences, ih]

theorem index_none (old : GoString) (hold : old ≠ []) (new : GoString) (s : GoString)
    (h : index s old = none) :
    substituteAll old new 0 s = s ∧ occurrences old 0 s = 0 := by
  induction s with
  | nil => simp [substituteAll, occurrences, hold]
  | cons c s ih =>
    unfold index at h
    split at h
    · simp at h
    · rename_i hp
      simp only [Option.map_eq_none'] at h
      obtain ⟨i1, i2⟩ := ih h
      simp [substituteAll, occurrences, hp, i1, i2]

theorem index_some (old : GoString) (hold : old ≠ []) (new : GoString) (s : GoString)
    (j : Nat) (h : index s old = some j) :
    j + old.length ≤ s.length
      ∧ substituteAll old new 0 s
          = s.take j ++ new ++ substituteAll old new 0 (s.drop (j + old.length))
      ∧ occurrences old 0 s = 1 + occurrences old 0 (s.drop (j + old.length)) := by
  induction s generalizing j with
  | nil => simp [index, hold] at h
  | cons c s ih =>
    unfold index at h
    split at h
    · rename_i hp
      simp only [Option.some.injEq] at h
      subst h
      have hpre : old <+: c :: s := by simpa using hp
      have hlen := hpre.length_le
      have hpos : 0 < old.length := List.length_pos.mpr hold
      have hd : List.drop (0 + old.length) (c :: s) = List.drop (old.length - 1) s := by
        obtain ⟨n, hn⟩ : ∃ n, old.length = n + 1 := ⟨old.length - 1, by omega⟩
        simp [hn]
      refine ⟨by simpa using hlen, ?_, ?_⟩
      · simp only [substituteAll, hp, if_true, hold, if_false, List.take_zero, List.nil_append]
        rw [substituteAll_skip old new, hd]
      · simp only [occurrences, hp, if_true, hold, if_false]
        rw [occurrences_skip old, hd]
    · rename_i hp
      simp only [Option.map_eq_some'] at h
      obtain ⟨j2, hj2, rfl⟩ := h
      obtain ⟨i1, i2, i3⟩ := ih j2 hj2
      refine ⟨by simp only [List.length_cons]; omega, ?_, ?_⟩
      · have hd : List.drop (j2 + 1 + old.length) (c :: s) = List.drop (j2 + old.length) s := by
          rw [show j2 + 1 + old.length = (j2 + old.length) + 1 by omega]
          rfl
        simp only [substituteAll, hp, Bool.false_eq_true, if_false, hd]
        rw [i2]
        simp
      · have hd : List.drop (j2 + 1 + old.length) (c :: s) = List.drop (j2 + old.length) s := by
          rw [show j2 + 1 + old.length = (j2 + old.length) + 1 by omega]
          rfl
        simp only [occurrences, hp, Bool.false_eq_true, if_false, hd]
        rw [i3]

theorem countLoop_occurrences (old : GoString) (hold : old ≠ []) (fuel : Nat) (s : GoString)
    (n : Nat) (hf : s.length < fuel) :
    countLoop old fuel s n = n + occurrences old 0 s := by
  induction fuel generalizing s n with
  | zero => omega
  | succ fuel ih =>
    unfold countLoop
    cases hi : index s old with
    | none => simp [(index_none old hold [] s hi).2]
    | some j =>
      obtain ⟨h1, -, h3⟩ := index_some old hold [] s j hi
      have hpos : 0 < old.length := List.length_pos.mpr hold
      simp only
      rw [ih _ _ (by simp only [List.length_drop]; omega), h3]
      omega

theorem count_occurrences (old s : GoString) : count s old = occurrences old 0 s := by
  unfold count
  split
  next h =>
    subst h
    induction s with
    | nil => simp [occurrences]
    | cons c s ih => simp [occurrences, ← ih]; omega
  next h =>
    rw [countLoop_occurrences old h _ _ _ (by omega)]
    simp

theorem replaceLoop_occurrences (old new : GoString) (hold : old ≠ []) (n : Nat) (f : Bool)
    (s : GoString) (hn : occurrences old 0 s = n) :
    replaceLoop old new n f s = substituteAll old new 0 s := by
  induction n generalizing s f with
  | zero =>
    cases hi : index s old with
    | none => simp [replaceLoop, (index_none old hold new s hi).1]
    | some j =>
      have := (index_some old hold new s j hi).2.2
      omega
  | succ n ih =>
    unfold replaceLoop
    rw [if_neg hold]
    cases hi : index s old with
    | none =>
      have := (index_none old hold new s hi).2
      omega
    | some j =>
      obtain ⟨-, h2, h3⟩ := index_some old hold new s j hi
      simp only
      rw [ih false _ (by omega), h2]

theorem replaceLoop_empty (new : GoString) (s : GoString) :
    new ++ replaceLoop [] new s.length false s = substituteAll [] new 0 s := by
  induction s with
  | nil => simp [replaceLoop, substituteAll]
  | cons c s ih =>
    simp only [List.length_cons, replaceLoop, if_true, Bool.false_eq_true, if_false,
      substituteAll, List.isPrefixOf, List.take_succ_cons, List.take_zero, List.drop_succ_cons,
      List.drop_zero, List.singleton_append, List.cons_append, List.nil_append]
    rw [← ih]

/-- Go `bytes.Replace(s, old, new, -1)` refines the specification: its result
is `s` with every occurrence of `old` replaced by `new`, and the number of
substitutions it performs is the number of occurrences. -/
theorem bytesReplace_all (s old new : GoString) :
    bytesReplace s old new (-1) = substituteAll old new 0 s
      ∧ bytesReplaceCount s old (-1) = occurrences old 0 s := by
  unfold bytesReplace bytesReplaceCount
  have h1 : ((-1 : Int) ≠ 0) := by decide
  have h2 : ((-1 : Int) < 0) := by decide
  simp only [h1, h2, ne_eq, not_false_eq_true, if_true, true_or, count_occurrences]
  by_cases hold : old = []
  · subst hold
    have hpos : occurrences [] 0 s = s.length + 1 := by
      rw [← count_occurrences]
      simp [count]
    rw [hpos]
    simp only [Nat.add_one_ne_zero, if_false, and_true]
    rw [← replaceLoop_empty]
    simp [replaceLoop]
  · by_cases hz : occurrences old 0 s = 0
    · simp only [hz, if_true, and_true]
      cases hi : index s old with
      | none => exact (index_none old hold new s hi).1.symm
      | some j =>
        have := (index_some old hold new s j hi).2.2
        omega
    · simp only [hz, if_false, and_true]
      exact replaceLoop_occurrences old new hold _ true s rfl

/-! ## Lemmas on the environment -/

@[simp] theorem step_trace (w : World) (c : Call) (ok : Bool) (fs : List (GoString × File)) :
    (w.step c ok fs).trace = w.trace ++ [⟨c, ok⟩] := rfl

@[simp] theorem step_files_true (w : World) (c : Call) (fs : List (GoString × File)) :
    (w.step c true fs).files = fs := rfl

@[simp] theorem step_files_false (w : World) (c : Call) (fs : List (GoString × File)) :
    (w.step c false fs).files = w.files := rfl

@[simp] theorem printf_trace (w : World) (f : String) (args : List LogArg) :
    (w.printf f args).trace = w.trace := rfl

@[simp] theorem printf_files (w : World) (f : String) (args : List LogArg) :
    (w.printf f args).files = w.files := rfl

theorem osOpen_inv {name : GoString} {r : Except GoError GoString} {w w1 : World}
    (heq : osOpen name w = (r, w1)) :
    w1 = w.step ⟨.open, name⟩ (okE r) w.files ∧ (∀ h, r = .ok h → h = name) := by
  unfold osOpen at heq
  split at heq <;> simp only [Prod.mk.injEq] at heq <;> obtain ⟨rfl, rfl⟩ := heq <;> simp [okE]

theorem osCreate_inv {name : GoString} {r : Except GoError GoString} {w w1 : World}
    (heq : osCreate name w = (r, w1)) :
    w1 = w.step ⟨.create, name⟩ (okE r) (upsert name ⟨[], createdMode name 0o666 w⟩ w.files)
      ∧ (∀ h, r = .ok h → h = name) := by
  unfold osCreate at heq
  split at heq <;> simp only [Prod.mk.injEq] at heq <;> obtain ⟨rfl, rfl⟩ := heq <;>
    simp [okE, World.step]

theorem ioCopy_inv {out inp : GoString} {r : Option GoError} {w w1 : World}
    (heq : ioCopy out inp w = (r, w1)) :
    w1 = w.step ⟨.copy, out⟩ (okO r)
      (upsert out ⟨w.contentOf out ++ w.contentOf inp, w.modeOf out⟩ w.files) := by
  unfold ioCopy at heq
  split at heq <;> simp only [Prod.mk.injEq] at heq <;> obtain ⟨rfl, rfl⟩ := heq <;>
    simp [okO, World.step]

theorem fileSync_inv {h : GoString} {r : Option GoError} {w w1 : World}
    (heq : fileSync h w = (r, w1)) :
    w1 = w.step ⟨.sync, h⟩ (okO r) w.files := by
  unfold fileSync at heq
  split at heq <;> simp only [Prod.mk.injEq] at heq <;> obtain ⟨rfl, rfl⟩ := heq <;>
    simp [okO, World.step]

theorem osStat_inv {name : GoString} {r : Except GoError Nat} {w w1 : World}
    (heq : osStat name w = (r, w1)) :
    w1 = w.step ⟨.stat, name⟩ (okE r) w.files ∧ (∀ m, r = .ok m → m = w.modeOf name) := by
  unfold osStat at heq
  split at heq <;> simp only [Prod.mk.injEq] at heq <;> obtain ⟨rfl, rfl⟩ := heq <;>
    simp [okE, World.step]

theorem osChmod_inv {name : GoString} {mode : Nat} {r : Option GoError} {w w1 : World}
    (heq : osChmod name mode w = (r, w1)) :
    w1 = w.step ⟨.chmod, name⟩ (okO r) (upsert name ⟨w.contentOf name, mode⟩ w.files) := by
  unfold osChmod at heq
  split at heq <;> simp only [Prod.mk.injEq] at heq <;> obtain ⟨rfl, rfl⟩ := heq <;>
    simp [okO, World.step]

theorem osRemove_snd (name : GoString) (w : World) :
    (osRemove name w).2 = w.step ⟨.remove, name⟩ (w.canUse name) (removeFile name w.files) := by
  unfold osRemove
  split <;> simp_all [World.step]

theorem moveFile_run (src dst : GoString) (w : World) :
    w.trace <+: (moveFile src dst w).2.trace
      ∧ (∀ e ∈ newEvents w (moveFile src dst w).2,
          e.call.op ≠ .httpGet ∧ e.call.op ≠ .writeFile ∧ e.call.op ≠ .readFile)
      ∧ ((moveFile src dst w).1 = none →
          ∀ e ∈ newEvents w (moveFile src dst w).2, e.ok = false →
            e.call.op = .remove ∨ e.call.op = .close) := by
  unfold moveFile
  split
  · simp [newEvents]
  · split
    next err w1 h1 =>
      obtain ⟨rfl, -⟩ := osOpen_inv h1
      simp [newEvents, okE]
    next inp w1 h1 =>
      obtain ⟨rfl, hinp⟩ := osOpen_inv h1
      obtain rfl := hinp _ rfl
      split
      next err w2 h2 =>
        obtain ⟨rfl, -⟩ := osCreate_inv h2
        simp [newEvents, okE, fileClose]
      next out w2 h2 =>
        obtain ⟨rfl, hout⟩ := osCreate_inv h2
        obtain rfl := hout _ rfl
        split
        next err w3 h3 =>
          obtain rfl := ioCopy_inv h3
          simp [newEvents, okE, okO, fileClose]
        next w3 h3 =>
          obtain rfl := ioCopy_inv h3
          split
          next err w5 h5 =>
            obtain rfl := fileSync_inv h5
            simp [newEvents, okE, okO, fileClose, osRemove_snd]
          next w5 h5 =>
            obtain rfl := fileSync_inv h5
            split
            next err w6 h6 =>
              obtain ⟨rfl, -⟩ := osStat_inv h6
              simp [newEvents, okE, okO, fileClose, osRemove_snd]
            next mode w6 h6 =>
              obtain ⟨rfl, -⟩ := osStat_inv h6
              split
              next err w7 h7 =>
                obtain rfl := osChmod_inv h7
                cases err <;> simp [newEvents, okE, okO, fileClose, osRemove_snd]

theorem osWriteFile_inv {name data : GoString} {perm : Nat} {r : Option GoError} {w w1 : World}
    (heq : osWriteFile name data perm w = (r, w1)) :
    w1.trace = w.trace ++ [⟨⟨.writeFile, name⟩, okO r⟩] := by
  unfold osWriteFile at heq
  split at heq <;> simp only [Prod.mk.injEq] at heq <;> obtain ⟨rfl, rfl⟩ := heq <;>
    simp [okO, World.step, World.failedWrite]

theorem osReadFile_inv {name : GoString} {r : Except GoError GoString} {w w1 : World}
    (heq : osReadFile name w = (r, w1)) :
    w1 = w.step ⟨.readFile, name⟩ (okE r) w.files
      ∧ (∀ c, r = .ok c → c = w.contentOf name) := by
  unfold osReadFile at heq
  split at heq <;> simp only [Prod.mk.injEq] at heq <;> obtain ⟨rfl, rfl⟩ := heq <;>
    simp [okE, World.step]

theorem httpGet_inv {u : GoString} {r : Except GoError GoString} {w w1 : World}
    (heq : httpGet u w = (r, w1)) :
    w1 = w.step ⟨.httpGet, u⟩ (okE r) w.files := by
  unfold httpGet at heq
  split at heq <;> simp only [Prod.mk.injEq] at heq <;> obtain ⟨rfl, rfl⟩ := heq <;>
    simp [okE, World.step]

theorem newEvents_self (w : World) : newEvents w w = [] := by
  simp [newEvents]

theorem newEvents_trans {w w1 w2 : World} (h1 : w.trace <+: w1.trace)
    (h2 : w1.trace <+: w2.trace) :
    newEvents w w2 = newEvents w w1 ++ newEvents w1 w2 := by
  obtain ⟨e1, he1⟩ := h1
  obtain ⟨e2, he2⟩ := h2
  simp [newEvents, ← he2, ← he1]

theorem newEvents_step (w : World) (c : Call) (ok : Bool) (fs : List (GoString × File)) :
    newEvents w (w.step c ok fs) = [⟨c, ok⟩] := by
  simp [newEvents]

theorem trace_prefix_step (w : World) (c : Call) (ok : Bool) (fs : List (GoString × File)) :
    w.trace <+: (w.step c ok fs).trace := by
  simp

/-- The method `writeFile` issues the one call `os.WriteFile` and, when errors
are ignored, drops its error. -/
theorem writeFile_run (g : GetService) (name content : GoString) (w : World) :
    (g.writeFile name content w).1
        = (if g.ignoreErrors then none else (osWriteFile name content 0o666 w).1)
      ∧ (g.writeFile name content w).2.trace
        = w.trace ++ [⟨⟨.writeFile, name⟩, okO (osWriteFile name content 0o666 w).1⟩]
      ∧ (g.writeFile name content w).2.files = (osWriteFile name content 0o666 w).2.files := by
  unfold GetService.writeFile
  split
  next err w1 heq =>
    have h1 := osWriteFile_inv heq
    split <;> simp [heq, h1]

theorem prepareIndexFile_run (g : GetService) (w : World) :
    w.trace <+: (g.prepareIndexFile w).2.trace
      ∧ (∀ e ∈ newEvents w (g.prepareIndexFile w).2, e.call.op ≠ .httpGet)
      ∧ ((g.prepareIndexFile w).1 = none →
          ∀ e ∈ newEvents w (g.prepareIndexFile w).2, e.ok = false →
            e.call.op = .remove ∨ e.call.op = .close
              ∨ (e.call.op = .writeFile ∧ g.ignoreErrors = true)) := by
  unfold GetService.prepareIndexFile
  dsimp only
  split
  · split
    next err w1 h1 =>
      obtain ⟨rfl, -⟩ := osReadFile_inv h1
      simp [newEvents, okE]
    next content w1 h1 =>
      obtain ⟨rfl, -⟩ := osReadFile_inv h1
      simp only [okE]
      obtain ⟨hr, ht, -⟩ := writeFile_run g g.indexFilePath
        (bytesReplace content g.config.url g.newRootURL (-1))
        (w.step ⟨.readFile, g.indexFilePath⟩ true w.files)
      split
      next err w2 h2 =>
        rw [h2] at ht
        simp only [step_trace, List.append_assoc] at ht
        simp [newEvents, ht]
      next w2 h2 =>
        rw [h2] at ht hr
        simp only [step_trace, List.append_assoc, List.singleton_append] at ht
        have hp : w.trace <+: w2.trace := ⟨_, ht.symm⟩
        have hev : newEvents w w2 = [⟨⟨.readFile, g.indexFilePath⟩, true⟩,
            ⟨⟨.writeFile, g.indexFilePath⟩, okO (osWriteFile g.indexFilePath
              (bytesReplace content g.config.url g.newRootURL (-1)) 0o666
              (w.step ⟨.readFile, g.indexFilePath⟩ true w.files)).1⟩] := by
          simp [newEvents, ht]
        obtain ⟨m1, m2, m3⟩ := moveFile_run g.indexFilePath
          (pathJoin [g.config.name, indexFileName]) w2
        rw [newEvents_trans hp m1, hev]
        refine ⟨hp.trans m1, ?_, ?_⟩
        · intro e he
          simp only [List.mem_append, List.mem_cons, List.mem_singleton, List.not_mem_nil,
            or_false] at he
          rcases he with (rfl | rfl) | he
          · simp
          · simp
          · exact (m2 e he).1
        · intro hn e he hf
          simp only [List.mem_append, List.mem_cons, List.mem_singleton, List.not_mem_nil,
            or_false] at he
          rcases he with (rfl | rfl) | he
          · simp at hf
          · right; right
            refine ⟨rfl, ?_⟩
            by_contra hg
            simp only [Bool.not_eq_true] at hg
            simp only [hg, Bool.false_eq_true, if_false] at hr
            simp [← hr, okO] at hf
          · rcases m3 hn e he hf with h | h
            · exact Or.inl h
            · exact Or.inr (Or.inl h)
  · obtain ⟨h1, h2, h3⟩ := moveFile_run g.indexFilePath
      (pathJoin [g.config.name, indexFileName]) w
    refine ⟨h1, fun e he => (h2 e he).1, fun hn e he hf => ?_⟩
    rcases h3 hn e he hf with h | h
    · exact Or.inl h
    · exact Or.inr (Or.inl h)

theorem fetchedURLs_append (a b : List Event) :
    fetchedURLs (a ++ b) = fetchedURLs a ++ fetchedURLs b := by
  simp [fetchedURLs]

theorem fetchedURLs_get (u : GoString) (ok : Bool) :
    fetchedURLs [⟨⟨.httpGet, u⟩, ok⟩] = [u] := by
  simp [fetchedURLs]

theorem fetchedURLs_write (p : GoString) (ok : Bool) :
    fetchedURLs [⟨⟨.writeFile, p⟩, ok⟩] = [] := by
  simp [fetchedURLs]

theorem writeFile_newEvents (g : GetService) (name content : GoString) (w : World) :
    w.trace <+: (g.writeFile name content w).2.trace
      ∧ newEvents w (g.writeFile name content w).2
        = [⟨⟨.writeFile, name⟩, okO (osWriteFile name content 0o666 w).1⟩] := by
  obtain ⟨-, ht, -⟩ := writeFile_run g name content w
  exact ⟨⟨_, ht.symm⟩, by simp [newEvents, ht]⟩

theorem downloadURLs_events (g : GetService) (res : SearchResult) (us : List GoString)
    (w : World) :
    w.trace <+: (g.downloadURLs res us w).2.trace
      ∧ fetchedURLs (newEvents w (g.downloadURLs res us w).2) <+: us
      ∧ ((g.downloadURLs res us w).1 = none →
          fetchedURLs (newEvents w (g.downloadURLs res us w).2) = us)
      ∧ (g.ignoreErrors = true → (g.downloadURLs res us w).1 = none)
      ∧ (∀ e ∈ newEvents w (g.downloadURLs res us w).2,
          e.call.op = .httpGet ∨ e.call.op = .writeFile)
      ∧ ((g.downloadURLs res us w).1 = none →
          ∀ e ∈ newEvents w (g.downloadURLs res us w).2, e.ok = false →
            g.ignoreErrors = true) := by
  induction us generalizing w with
  | nil => simp [GetService.downloadURLs, newEvents, fetchedURLs]
  | cons u us ih =>
    unfold GetService.downloadURLs
    split
    next err w1 h1 =>
      obtain rfl := httpGet_inv h1
      simp only [okE]
      split
      next hig =>
        have hp : w.trace <+: ((w.step ⟨.httpGet, u⟩ false w.files).printf
            "WARNING: processing chart %s(%s) - %s"
            [.str res.name, .str res.chart.version, .err (some err)]).trace := by simp
        have hev : newEvents w ((w.step ⟨.httpGet, u⟩ false w.files).printf
            "WARNING: processing chart %s(%s) - %s"
            [.str res.name, .str res.chart.version, .err (some err)])
              = [⟨⟨.httpGet, u⟩, false⟩] := by simp [newEvents]
        obtain ⟨i1, i2, i3, i4, i5, i6⟩ := ih ((w.step ⟨.httpGet, u⟩ false w.files).printf
            "WARNING: processing chart %s(%s) - %s"
            [.str res.name, .str res.chart.version, .err (some err)])
        rw [newEvents_trans hp i1, hev, fetchedURLs_append]
        refine ⟨hp.trans i1, ?_, ?_, i4, ?_, ?_⟩
        · rw [fetchedURLs_get]
          exact (List.prefix_cons_inj u).mpr i2
        · intro hn
          rw [fetchedURLs_get, i3 hn]
          rfl
        · intro e he
          simp only [List.mem_append, List.mem_singleton] at he
          rcases he with rfl | he
          · simp
          · exact i5 e he
        · intro _ e _ _
          exact hig
      next hig =>
        simp [newEvents, fetchedURLs_get, hig]
    next b w1 h1 =>
      obtain rfl := httpGet_inv h1
      simp only [okE]
      obtain ⟨hr, -, -⟩ := writeFile_run g
        (pathJoin [g.config.name, chartFileName res.chart.name res.chart.version]) b
        (w.step ⟨.httpGet, u⟩ true w.files)
      obtain ⟨hwp, hwe⟩ := writeFile_newEvents g
        (pathJoin [g.config.name, chartFileName res.chart.name res.chart.version]) b
        (w.step ⟨.httpGet, u⟩ true w.files)
      have hp0 : w.trace <+: (w.step ⟨.httpGet, u⟩ true w.files).trace := by simp
      have hev0 : newEvents w (w.step ⟨.httpGet, u⟩ true w.files) = [⟨⟨.httpGet, u⟩, true⟩] :=
        newEvents_step _ _ _ _
      split
      next err w2 h2 =>
        rw [h2] at hwp hwe hr
        have hg : g.ignoreErrors = false := by
          by_contra hc
          simp only [Bool.not_eq_false] at hc
          simp [hc] at hr
        rw [newEvents_trans hp0 hwp, hev0, hwe, fetchedURLs_append]
        refine ⟨hp0.trans hwp, ?_, ?_, ?_, ?_, ?_⟩
        · simp [fetchedURLs_get, fetchedURLs_write]
        · simp
        · simp [hg]
        · intro e he
          simp only [List.mem_append, List.mem_singleton] at he
          rcases he with rfl | rfl <;> simp
        · simp
      next w2 h2 =>
        rw [h2] at hwp hwe hr
        obtain ⟨i1, i2, i3, i4, i5, i6⟩ := ih w2
        have hp : w.trace <+: w2.trace := hp0.trans hwp
        rw [newEvents_trans hp i1, newEvents_trans hp0 hwp, hev0, hwe]
        simp only [fetchedURLs_append]
        refine ⟨hp.trans i1, ?_, ?_, i4, ?_, ?_⟩
        · rw [fetchedURLs_get, fetchedURLs_write]
          exact (List.prefix_cons_inj u).mpr i2
        · intro hn
          rw [fetchedURLs_get, fetchedURLs_write, i3 hn]
          rfl
        · intro e he
          simp only [List.mem_append, List.mem_singleton] at he
          rcases he with (rfl | rfl) | he
          · simp
          · simp
          · exact i5 e he
        · intro hn e he hf
          simp only [List.mem_append, List.mem_singleton] at he
          rcases he with (rfl | rfl) | he
          · simp at hf
          · by_contra hc
            simp only [Bool.not_eq_true] at hc
            simp only [hc, Bool.false_eq_true, if_false] at hr
            simp [← hr, okO] at hf
          · exact i6 hn e he hf

theorem selectedURLs_cons (g : GetService) (res : SearchResult) (rest : List SearchResult) :
    g.selectedURLs (res :: rest)
      = (if g.selects res then res.chart.urls else []) ++ g.selectedURLs rest := by
  unfold GetService.selectedURLs
  by_cases h : g.selects res = true <;> simp [List.filter_cons, h]

theorem downloadResults_events (g : GetService) (results : List SearchResult) (w : World) :
    w.trace <+: (g.downloadResults results w).2.trace
      ∧ fetchedURLs (newEvents w (g.downloadResults results w).2) <+: g.selectedURLs results
      ∧ ((g.downloadResults results w).1 = none →
          fetchedURLs (newEvents w (g.downloadResults results w).2) = g.selectedURLs results)
      ∧ (g.ignoreErrors = true → (g.downloadResults results w).1 = none)
      ∧ (∀ e ∈ newEvents w (g.downloadResults results w).2,
          e.call.op = .httpGet ∨ e.call.op = .writeFile)
      ∧ ((g.downloadResults results w).1 = none →
          ∀ e ∈ newEvents w (g.downloadResults results w).2, e.ok = false →
            g.ignoreErrors = true) := by
  induction results generalizing w with
  | nil => simp [GetService.downloadResults, newEvents, fetchedURLs, GetService.selectedURLs]
  | cons res rest ih =>
    unfold GetService.downloadResults
    rw [selectedURLs_cons]
    split
    next hname =>
      have hs : g.selects res = false := by
        simp only [GetService.selects]
        simp [hname.1, hname.2]
      simpa [hs] using ih w
    next hname =>
      split
      next hver =>
        have hs : g.selects res = false := by
          simp only [GetService.selects]
          simp [hver.1, hver.2]
        simpa [hs] using ih w
      next hver =>
        have hs : g.selects res = true := by
          simp only [GetService.selects]
          simp only [not_and_or, not_not, ne_eq] at hname hver
          rcases hname with h1 | h1 <;> rcases hver with h2 | h2 <;> simp [h1, h2]
        simp only [hs, if_true]
        obtain ⟨u1, u2, u3, u4, u5, u6⟩ := downloadURLs_events g res res.chart.urls w
        split
        next err w1 h1 =>
          rw [h1] at u1 u2 u3 u4 u5 u6
          refine ⟨u1, u2.trans (List.prefix_append _ _), by simp, ?_, u5, by simp⟩
          intro hg
          simpa using u4 hg
        next w1 h1 =>
          rw [h1] at u1 u2 u3 u4 u5 u6
          obtain ⟨i1, i2, i3, i4, i5, i6⟩ := ih w1
          rw [newEvents_trans u1 i1, fetchedURLs_append, u3 rfl]
          refine ⟨u1.trans i1, (List.prefix_append_right_inj _).mpr i2, ?_, i4, ?_, ?_⟩
          · intro hn
            rw [i3 hn]
          · intro e he
            rcases List.mem_append.mp he with he | he
            · exact u5 e he
            · exact i5 e he
          · intro hn e he hf
            rcases List.mem_append.mp he with he | he
            · exact u6 rfl e he hf
            · exact i6 hn e he hf

theorem upsert_paths (p : GoString) (f : File) (fs : List (GoString × File)) :
    (upsert p f fs).map Prod.fst
      = if p ∈ fs.map Prod.fst then fs.map Prod.fst else fs.map Prod.fst ++ [p] := by
  induction fs with
  | nil => simp [upsert]
  | cons e fs ih =>
    rcases e with ⟨q, g⟩
    unfold upsert
    by_cases h : q = p
    · simp [h]
    · have h2 : ¬ p = q := fun h3 => h h3.symm
      by_cases hm : p ∈ fs.map Prod.fst
      · rw [if_neg h, List.map_cons, ih, if_pos hm, if_pos (by simp [hm])]
        rfl
      · rw [if_neg h, List.map_cons, ih, if_neg hm, if_neg (by simpa [h2] using hm)]
        rfl

theorem osWriteFile_files_ok (name data : GoString) (perm : Nat) (w : World)
    (hok : okO (osWriteFile name data perm w).1 = true) :
    (osWriteFile name data perm w).2.files
      = upsert name ⟨data, createdMode name perm w⟩ w.files := by
  unfold osWriteFile at hok ⊢
  split
  · rfl
  · rename_i h
    simp [h, okO] at hok

theorem osWriteFile_paths (name data : GoString) (perm : Nat) (w : World) :
    (osWriteFile name data perm w).2.paths = w.paths
      ∨ (name ∉ w.paths ∧ (osWriteFile name data perm w).2.paths = w.paths ++ [name]) := by
  unfold osWriteFile World.paths
  split
  · simp only [step_files_true, upsert_paths]
    split
    · exact Or.inl rfl
    · rename_i hm
      exact Or.inr ⟨hm, rfl⟩
  · simp only [World.failedWrite]
    split
    · simp only [upsert_paths]
      split
      · exact Or.inl rfl
      · rename_i hm
        exact Or.inr ⟨hm, rfl⟩
    · exact Or.inl rfl

theorem step_paths (w : World) (c : Call) (ok : Bool) (fs : List (GoString × File)) :
    (w.step c ok fs).paths = if ok then fs.map Prod.fst else w.paths := by
  cases ok <;> rfl

theorem printf_paths (w : World) (f : String) (args : List LogArg) :
    (w.printf f args).paths = w.paths := rfl

theorem succeededFetches_append (a b : List Event) :
    succeededFetches (a ++ b) = succeededFetches a + succeededFetches b := by
  simp [succeededFetches]

theorem succeededCalls_append (a b : List Event) :
    succeededCalls (a ++ b) = succeededCalls a ++ succeededCalls b := by
  simp [succeededCalls]

theorem writeFile_paths_facts (g : GetService) (name content : GoString) (w : World) :
    (∃ extra, (g.writeFile name content w).2.paths = w.paths ++ extra ∧ extra.length ≤ 1
        ∧ ∀ p ∈ extra, p = name ∧ p ∉ w.paths)
      ∧ (okO (osWriteFile name content 0o666 w).1 = true →
          name ∈ (g.writeFile name content w).2.paths
            ∧ (name ∉ w.paths → (g.writeFile name content w).2.paths = w.paths ++ [name])) := by
  obtain ⟨-, -, hf⟩ := writeFile_run g name content w
  have hp : (g.writeFile name content w).2.paths
      = (osWriteFile name content 0o666 w).2.paths := by
    unfold World.paths
    rw [hf]
  rw [hp]
  refine ⟨?_, fun hok => ?_⟩
  · rcases osWriteFile_paths name content 0o666 w with h | ⟨hn, h⟩
    · exact ⟨[], by simp [h], by simp, by simp⟩
    · exact ⟨[name], h, by simp, by simpa using hn⟩
  · have hfiles := osWriteFile_files_ok name content 0o666 w hok
    have hpaths : (osWriteFile name content 0o666 w).2.paths
        = if name ∈ w.paths then w.paths else w.paths ++ [name] := by
      unfold World.paths
      rw [hfiles, upsert_paths]
    rw [hpaths]
    refine ⟨?_, fun hn => by rw [if_neg hn]⟩
    split
    · assumption
    · simp

theorem succeededFetches_get (u : GoString) :
    succeededFetches [⟨⟨.httpGet, u⟩, true⟩] = 1 := by
  simp [succeededFetches]

theorem succeededFetches_write (p : GoString) (ok : Bool) :
    succeededFetches [⟨⟨.writeFile, p⟩, ok⟩] = 0 := by
  simp [succeededFetches]

theorem mem_succeededCalls_get (u p : GoString) (ok : Bool) :
    ¬ (⟨.writeFile, p⟩ : Call) ∈ succeededCalls [⟨⟨.httpGet, u⟩, ok⟩] := by
  cases ok <;> simp [succeededCalls]

theorem mem_succeededCalls_write (q p : GoString) (ok : Bool) :
    (⟨.writeFile, p⟩ : Call) ∈ succeededCalls [⟨⟨.writeFile, q⟩, ok⟩] ↔ (ok = true ∧ p = q) := by
  cases ok <;> simp [succeededCalls]

theorem lookupFile_upsert_self (p : GoString) (f : File) (fs : List (GoString × File)) :
    lookupFile p (upsert p f fs) = some f := by
  induction fs with
  | nil => simp [upsert, lookupFile]
  | cons e fs ih =>
    rcases e with ⟨q, g⟩
    by_cases h : q = p <;> simp [upsert, lookupFile, h, ih]

theorem lookupFile_upsert_ne (p q : GoString) (f : File) (fs : List (GoString × File))
    (hne : q ≠ p) : lookupFile q (upsert p f fs) = lookupFile q fs := by
  induction fs with
  | nil => simp [upsert, lookupFile, hne.symm]
  | cons e fs ih =>
    rcases e with ⟨r, g⟩
    unfold upsert
    by_cases h : r = p
    · subst h
      simp [lookupFile, hne.symm]
    · rw [if_neg h]
      unfold lookupFile
      rw [ih]

theorem lookupFile_removeFile_ne (p q : GoString) (fs : List (GoString × File))
    (hne : q ≠ p) : lookupFile q (removeFile p fs) = lookupFile q fs := by
  induction fs with
  | nil => simp [removeFile, lookupFile]
  | cons e fs ih =>
    rcases e with ⟨r, g⟩
    unfold removeFile at ih ⊢
    by_cases h : r = p
    · subst h
      rw [List.filter_cons_of_neg (by simp), ih]
      simp [lookupFile, hne.symm]
    · rw [List.filter_cons_of_pos (by simpa using h)]
      unfold lookupFile
      rw [ih]

theorem step_contentOf_same (w : World) (c : Call) (ok : Bool) (p : GoString) :
    (w.step c ok w.files).contentOf p = w.contentOf p := by
  cases ok <;> rfl

theorem step_contentOf_upsert_self (w : World) (c : Call) (p : GoString) (f : File) :
    (w.step c true (upsert p f w.files)).contentOf p = f.content := by
  simp [World.contentOf, lookupFile_upsert_self]

theorem step_contentOf_upsert_ne (w : World) (c : Call) (p q : GoString) (f : File)
    (hne : q ≠ p) :
    (w.step c true (upsert p f w.files)).contentOf q = w.contentOf q := by
  simp [World.contentOf, lookupFile_upsert_ne _ _ _ _ hne]

theorem fileClose_contentOf (h p : GoString) (w : World) :
    (fileClose h w).contentOf p = w.contentOf p :=
  step_contentOf_same _ _ _ _

theorem osRemove_contentOf_ne (name q : GoString) (w : World) (hne : q ≠ name) :
    (osRemove name w).2.contentOf q = w.contentOf q := by
  rw [osRemove_snd]
  cases w.canUse name
  · rfl
  · simp [World.contentOf, lookupFile_removeFile_ne _ _ _ hne]

theorem failedCalls_append (a b : List Event) :
    failedCalls (a ++ b) = failedCalls a ++ failedCalls b := by
  simp [failedCalls]

theorem failedCalls_nil_iff (evs : List Event) :
    failedCalls evs = [] ↔ ∀ e ∈ evs, e.ok = true := by
  simp [failedCalls, List.filter_eq_nil_iff]

/-- A run of `moveFile` without a failed call returns nil and leaves at `dst`
the bytes that were at `src`. -/
theorem moveFile_ok (src dst : GoString) (w : World)
    (hok : failedCalls (newEvents w (moveFile src dst w).2) = []) :
    (moveFile src dst w).1 = none
      ∧ (moveFile src dst w).2.contentOf dst = w.contentOf src := by
  rw [failedCalls_nil_iff] at hok
  revert hok
  unfold moveFile
  split
  next h => intro _; simp [h]
  next hne =>
    split
    next err w1 h1 =>
      obtain ⟨rfl, -⟩ := osOpen_inv h1
      intro hok
      simp [newEvents, okE] at hok
    next inp w1 h1 =>
      obtain ⟨rfl, hinp⟩ := osOpen_inv h1
      obtain rfl := hinp _ rfl
      split
      next err w2 h2 =>
        obtain ⟨rfl, -⟩ := osCreate_inv h2
        intro hok
        simp [newEvents, okE, fileClose] at hok
      next out w2 h2 =>
        obtain ⟨rfl, hout⟩ := osCreate_inv h2
        obtain rfl := hout _ rfl
        split
        next err w3 h3 =>
          obtain rfl := ioCopy_inv h3
          intro hok
          simp [newEvents, okE, okO, fileClose] at hok
        next w3 h3 =>
          obtain rfl := ioCopy_inv h3
          split
          next err w5 h5 =>
            obtain rfl := fileSync_inv h5
            intro hok
            simp [newEvents, okE, okO, fileClose, osRemove_snd] at hok
          next w5 h5 =>
            obtain rfl := fileSync_inv h5
            split
            next err w6 h6 =>
              obtain ⟨rfl, -⟩ := osStat_inv h6
              intro hok
              simp [newEvents, okE, okO, fileClose, osRemove_snd] at hok
            next mode w6 h6 =>
              obtain ⟨rfl, -⟩ := osStat_inv h6
              split
              next err w7 h7 =>
                obtain rfl := osChmod_inv h7
                intro hok
                cases err with
                | some e => simp [newEvents, okE, okO, fileClose, osRemove_snd] at hok
                | none =>
                  refine ⟨rfl, ?_⟩
                  have hne2 : out ≠ inp := fun h => hne h.symm
                  simp only [okE, okO]
                  rw [fileClose_contentOf, osRemove_contentOf_ne _ _ _ hne2,
                    step_contentOf_upsert_self, step_contentOf_same, step_contentOf_same,
                    fileClose_contentOf, step_contentOf_upsert_self,
                    step_contentOf_upsert_self, step_contentOf_upsert_ne _ _ _ _ _ hne,
                    step_contentOf_same]
                  rfl

/-- A run of `prepareIndexFile` with a new root URL and without a failed call
returns nil and leaves, at `index.yaml` of the destination, the bytes of the
downloaded index with every occurrence of the origin URL replaced. -/
theorem prepareIndexFile_ok (g : GetService) (w : World) (hnew : g.newRootURL ≠ [])
    (hok : failedCalls (newEvents w (g.prepareIndexFile w).2) = []) :
    (g.prepareIndexFile w).1 = none
      ∧ (g.prepareIndexFile w).2.contentOf (pathJoin [g.config.name, indexFileName])
        = substituteAll g.config.url g.newRootURL 0 (w.contentOf g.indexFilePath) := by
  revert hok
  unfold GetService.prepareIndexFile
  dsimp only
  rw [if_pos hnew]
  split
  next err w1 h1 =>
    obtain ⟨rfl, -⟩ := osReadFile_inv h1
    intro hok
    simp [newEvents, okE, failedCalls] at hok
  next content w1 h1 =>
    obtain ⟨rfl, hc⟩ := osReadFile_inv h1
    obtain rfl := hc _ rfl
    simp only [okE]
    obtain ⟨hwp, hwe⟩ := writeFile_newEvents g g.indexFilePath
      (bytesReplace (w.contentOf g.indexFilePath) g.config.url g.newRootURL (-1))
      (w.step ⟨.readFile, g.indexFilePath⟩ true w.files)
    obtain ⟨hr, -, hf⟩ := writeFile_run g g.indexFilePath
      (bytesReplace (w.contentOf g.indexFilePath) g.config.url g.newRootURL (-1))
      (w.step ⟨.readFile, g.indexFilePath⟩ true w.files)
    have hp0 : w.trace <+: (w.step ⟨.readFile, g.indexFilePath⟩ true w.files).trace := by simp
    have hev0 : newEvents w (w.step ⟨.readFile, g.indexFilePath⟩ true w.files)
        = [⟨⟨.readFile, g.indexFilePath⟩, true⟩] := newEvents_step _ _ _ _
    split
    next err w2 h2 =>
      rw [h2] at hwp hwe hr
      intro hok
      rw [newEvents_trans hp0 hwp, hev0, hwe, failedCalls_nil_iff] at hok
      have hflag := hok _ (List.mem_append_right _ (List.mem_singleton_self _))
      simp only at hflag
      cases hos : (osWriteFile g.indexFilePath
        (bytesReplace (w.contentOf g.indexFilePath) g.config.url g.newRootURL (-1)) 0o666
        (w.step ⟨.readFile, g.indexFilePath⟩ true w.files)).1 with
      | some e => simp [hos, okO] at hflag
      | none =>
        rw [hos] at hr
        simp at hr
    next w2 h2 =>
      rw [h2] at hwp hwe hr hf
      intro hok
      obtain ⟨m1, -, -⟩ := moveFile_run g.indexFilePath
        (pathJoin [g.config.name, indexFileName]) w2
      rw [newEvents_trans (hp0.trans hwp) m1, failedCalls_append, List.append_eq_nil] at hok
      obtain ⟨hok1, hok2⟩ := hok
      rw [newEvents_trans hp0 hwp, hev0, hwe, failedCalls_nil_iff] at hok1
      have hflag := hok1 _ (List.mem_append_right _ (List.mem_singleton_self _))
      simp only at hflag
      obtain ⟨r1, r2⟩ := moveFile_ok _ _ w2 hok2
      refine ⟨r1, ?_⟩
      rw [r2, ← (bytesReplace_all _ _ _).1]
      unfold World.contentOf
      dsimp only at hf
      rw [hf, osWriteFile_files_ok _ _ _ _ hflag, lookupFile_upsert_self]
      rfl


/-! ## Lemmas on the archive file name -/

theorem chartFileName_eq_iff (n1 v1 n2 v2 : GoString) :
    chartFileName n1 v1 = chartFileName n2 v2 ↔ n1 ++ '-' :: v1 = n2 ++ '-' :: v2 := by
  unfold chartFileName
  have h : ∀ n v : GoString, n ++ "-".toList ++ v ++ ".tgz".toList
      = (n ++ '-' :: v) ++ ".tgz".toList := by
    intro n v
    simp
  rw [h, h]
  exact List.append_left_inj _

theorem dash_split_left (n1 v1 n2 v2 : GoString) (h1 : '-' ∉ n1) (h2 : '-' ∉ n2)
    (h : n1 ++ '-' :: v1 = n2 ++ '-' :: v2) : n1 = n2 ∧ v1 = v2 := by
  induction n1 generalizing n2 with
  | nil =>
    cases n2 with
    | nil => simpa using h
    | cons c n2 =>
      simp only [List.nil_append, List.cons_append, List.cons.injEq] at h
      exact absurd (h.1 ▸ List.mem_cons_self _ _) h2
  | cons c n1 ih =>
    cases n2 with
    | nil =>
      simp only [List.nil_append, List.cons_append, List.cons.injEq] at h
      exact absurd (h.1 ▸ List.mem_cons_self _ _) h1
    | cons d n2 =>
      simp only [List.cons_append, List.cons.injEq] at h
      obtain ⟨hn, hv⟩ := ih n2 (fun hm => h1 (List.mem_cons_of_mem _ hm))
        (fun hm => h2 (List.mem_cons_of_mem _ hm)) h.2
      exact ⟨by rw [h.1, hn], hv⟩

theorem dash_split_right (n1 v1 n2 v2 : GoString) (h1 : '-' ∉ v1) (h2 : '-' ∉ v2)
    (h : n1 ++ '-' :: v1 = n2 ++ '-' :: v2) : n1 = n2 ∧ v1 = v2 := by
  have hr := congrArg List.reverse h
  simp only [List.reverse_append, List.reverse_cons, List.append_assoc,
    List.singleton_append] at hr
  obtain ⟨hv, hn⟩ := dash_split_left v1.reverse n1.reverse v2.reverse n2.reverse
    (by simpa using h1) (by simpa using h2) hr
  exact ⟨List.reverse_injective hn, List.reverse_injective hv⟩

/-! ## Lemmas on the value tree -/

theorem cleanUp_cleanedFrom : ∀ m : Entries, m.CleanedFrom (cleanUp m)
  | .nil => by simp [cleanUp, Entries.CleanedFrom]
  | .cons k .null rest => by
    simp [cleanUp, Entries.CleanedFrom, cleanUp_cleanedFrom rest]
  | .cons k (.scalar s) rest => by
    simp [cleanUp, Entries.CleanedFrom, cleanUp_cleanedFrom rest]
  | .cons k (.seq xs) rest => by
    simp [cleanUp, Entries.CleanedFrom, cleanUp_cleanedFrom rest]
  | .cons k (.map t m) rest => by
    simp [cleanUp, Entries.CleanedFrom, cleanUp_cleanedFrom rest, cleanUp_cleanedFrom m]

theorem cleanUp_hasNull : ∀ m : Entries, (cleanUp m).hasNull = m.hasNullInSeq
  | .nil => by simp [cleanUp, Entries.hasNull, Entries.hasNullInSeq]
  | .cons k .null rest => by
    simp [cleanUp, Entries.hasNull, Value.hasNull, Entries.hasNullInSeq, cleanUp_hasNull rest]
  | .cons k (.scalar s) rest => by
    simp [cleanUp, Entries.hasNull, Value.hasNull, Entries.hasNullInSeq, cleanUp_hasNull rest]
  | .cons k (.seq xs) rest => by
    simp [cleanUp, Entries.hasNull, Value.hasNull, Entries.hasNullInSeq, cleanUp_hasNull rest]
  | .cons k (.map t m) rest => by
    simp [cleanUp, Entries.hasNull, Value.hasNull, Entries.hasNullInSeq, cleanUp_hasNull rest,
      cleanUp_hasNull m]

/-! ## Lemmas on the walk -/

theorem walkFn_quiet (env : ImagesEnv) (target dir name : GoString) (isDir : Bool)
    (s : ImagesService × Bool)
    (h : (!isDir && stringsContains name ".tgz".toList) = false) :
    ImagesService.walkFn env target dir (some ⟨name, isDir⟩) none s = (none, s) := by
  obtain ⟨i, b⟩ := s
  simp only [ImagesService.walkFn, h]
  rfl

mutual
theorem walk_quiet (env : ImagesEnv) (target : GoString) :
    ∀ (node : Node) (path name : GoString) (s : ImagesService × Bool),
      node.archivePaths path name = [] → node.hasWalkError = false →
      walk (ImagesService.walkFn env target) path name node s = (none, s)
  | .file, path, name, s, ha, _ => by
    have hc : stringsContains name ".tgz".toList = false := by
      cases hc : stringsContains name ".tgz".toList
      · rfl
      · rw [Node.archivePaths, hc] at ha
        simp at ha
    simp only [walk]
    exact walkFn_quiet env target path name false s (by rw [hc]; rfl)
  | .unreadable err, _, _, _, _, hw => by simp [Node.hasWalkError] at hw
  | .broken err, _, _, _, _, hw => by simp [Node.hasWalkError] at hw
  | .dir entries, path, name, s, ha, hw => by
    simp only [walk]
    rw [walkFn_quiet env target path name true s (by simp)]
    exact walkNames_quiet env target entries path s
      (by simpa [Node.archivePaths] using ha) (by simpa [Node.hasWalkError] using hw)
theorem walkNames_quiet (env : ImagesEnv) (target : GoString) :
    ∀ (entries : DirEntries) (path : GoString) (s : ImagesService × Bool),
      entries.archivePaths path = [] → entries.hasWalkError = false →
      walkNames (ImagesService.walkFn env target) path entries s = (none, s)
  | .nil, _, _, _, _ => by simp [walkNames]
  | .cons name node rest, path, s, ha, hw => by
    simp only [DirEntries.archivePaths, List.append_eq_nil] at ha
    simp only [DirEntries.hasWalkError, Bool.or_eq_false_iff] at hw
    simp only [walkNames]
    rw [walk_quiet env target node (pathJoin [path, name]) name s ha.1 hw.1]
    exact walkNames_quiet env target rest path s ha.2 hw.2
end

/-! ## Lemmas on the files of the download loop -/

theorem fetchOutcomes_append (a b : List Event) :
    fetchOutcomes (a ++ b) = fetchOutcomes a ++ fetchOutcomes b := by
  simp [fetchOutcomes]

theorem writePaths_append (a b : List Event) :
    writePaths (a ++ b) = writePaths a ++ writePaths b := by
  simp [writePaths]

theorem fetchOutcomes_get (u : GoString) (ok : Bool) :
    fetchOutcomes [⟨⟨.httpGet, u⟩, ok⟩] = [ok] := by
  simp [fetchOutcomes]

theorem fetchOutcomes_write (p : GoString) (ok : Bool) :
    fetchOutcomes [⟨⟨.writeFile, p⟩, ok⟩] = [] := by
  simp [fetchOutcomes]

theorem writePaths_get (u : GoString) (ok : Bool) :
    writePaths [⟨⟨.httpGet, u⟩, ok⟩] = [] := by
  simp [writePaths]

theorem writePaths_write (p : GoString) (ok : Bool) :
    writePaths [⟨⟨.writeFile, p⟩, ok⟩] = [p] := by
  simp [writePaths]

theorem expectedCalls_cons (g : GetService) (pair : SearchResult × GoString)
    (pairs : List (SearchResult × GoString)) (b : Bool) (bs : List Bool) :
    g.expectedCalls (pair :: pairs) (b :: bs)
      = g.callsOfPair pair b ++ g.expectedCalls pairs bs := by
  simp [GetService.expectedCalls]

theorem expectedCalls_append (g : GetService) (ps qs : List (SearchResult × GoString))
    (bs cs : List Bool) (h : bs.length = ps.length) :
    g.expectedCalls (ps ++ qs) (bs ++ cs)
      = g.expectedCalls ps bs ++ g.expectedCalls qs cs := by
  unfold GetService.expectedCalls
  rw [List.zip_append h.symm, List.map_append, List.flatten_append]

/-- With errors ignored, the inner loop issues, URL by URL, the fetch and, when
the fetch succeeded, one write at the archive path of the entry. -/
theorem downloadURLs_calls (g : GetService) (res : SearchResult) (us : List GoString)
    (w : World) (hig : g.ignoreErrors = true) :
    (newEvents w (g.downloadURLs res us w).2).map (fun e => e.call)
        = g.expectedCalls (us.map (fun u => (res, u)))
            (fetchOutcomes (newEvents w (g.downloadURLs res us w).2))
      ∧ (fetchOutcomes (newEvents w (g.downloadURLs res us w).2)).length = us.length := by
  induction us generalizing w with
  | nil => simp [GetService.downloadURLs, newEvents, fetchOutcomes, GetService.expectedCalls]
  | cons u us ih =>
    unfold GetService.downloadURLs
    split
    next err w1 h1 =>
      obtain rfl := httpGet_inv h1
      simp only [okE, hig, if_true]
      have hp : w.trace <+: ((w.step ⟨.httpGet, u⟩ false w.files).printf
          "WARNING: processing chart %s(%s) - %s"
          [.str res.name, .str res.chart.version, .err (some err)]).trace := by simp
      have hev : newEvents w ((w.step ⟨.httpGet, u⟩ false w.files).printf
          "WARNING: processing chart %s(%s) - %s"
          [.str res.name, .str res.chart.version, .err (some err)])
            = [⟨⟨.httpGet, u⟩, false⟩] := by simp [newEvents]
      obtain ⟨i1, i2⟩ := ih ((w.step ⟨.httpGet, u⟩ false w.files).printf
          "WARNING: processing chart %s(%s) - %s"
          [.str res.name, .str res.chart.version, .err (some err)])
      have ip := (downloadURLs_events g res us ((w.step ⟨.httpGet, u⟩ false w.files).printf
          "WARNING: processing chart %s(%s) - %s"
          [.str res.name, .str res.chart.version, .err (some err)])).1
      rw [newEvents_trans hp ip, hev, fetchOutcomes_append, fetchOutcomes_get, List.map_append,
        i1]
      refine ⟨?_, by simp [i2]⟩
      simp only [List.map_cons, List.singleton_append, expectedCalls_cons,
        GetService.callsOfPair, Bool.false_eq_true, if_false, List.map_nil]
    next b w1 h1 =>
      obtain rfl := httpGet_inv h1
      simp only [okE]
      obtain ⟨hr, -, -⟩ := writeFile_run g
        (pathJoin [g.config.name, chartFileName res.chart.name res.chart.version]) b
        (w.step ⟨.httpGet, u⟩ true w.files)
      obtain ⟨hwp, hwe⟩ := writeFile_newEvents g
        (pathJoin [g.config.name, chartFileName res.chart.name res.chart.version]) b
        (w.step ⟨.httpGet, u⟩ true w.files)
      have hp0 : w.trace <+: (w.step ⟨.httpGet, u⟩ true w.files).trace := by simp
      have hev0 : newEvents w (w.step ⟨.httpGet, u⟩ true w.files) = [⟨⟨.httpGet, u⟩, true⟩] :=
        newEvents_step _ _ _ _
      split
      next err w2 h2 =>
        rw [h2] at hr
        simp [hig] at hr
      next w2 h2 =>
        rw [h2] at hwp hwe
        obtain ⟨i1, i2⟩ := ih w2
        have ip := (downloadURLs_events g res us w2).1
        have hp : w.trace <+: w2.trace := hp0.trans hwp
        rw [newEvents_trans hp ip, newEvents_trans hp0 hwp, hev0, hwe]
        simp only [fetchOutcomes_append, fetchOutcomes_get, fetchOutcomes_write,
          List.map_append, i1, List.append_nil]
        refine ⟨?_, by simp [i2]⟩
        simp only [List.map_cons, List.singleton_append, expectedCalls_cons,
          GetService.callsOfPair, if_true, List.map_nil, GetService.chartPath,
          List.cons_append, List.nil_append]

theorem selectedPairs_cons (g : GetService) (res : SearchResult) (rest : List SearchResult) :
    g.selectedPairs (res :: rest)
      = (if g.selects res then res.chart.urls.map (fun u => (res, u)) else [])
        ++ g.selectedPairs rest := by
  unfold GetService.selectedPairs
  by_cases h : g.selects res = true <;> simp [List.filter_cons, h]

/-- With errors ignored, the outer loop issues, for each selected (entry, URL)
pair in order, the fetch and, when the fetch succeeded, one write at the
archive path of the entry. -/
theorem downloadResults_calls (g : GetService) (results : List SearchResult) (w : World)
    (hig : g.ignoreErrors = true) :
    (newEvents w (g.downloadResults results w).2).map (fun e => e.call)
        = g.expectedCalls (g.selectedPairs results)
            (fetchOutcomes (newEvents w (g.downloadResults results w).2))
      ∧ (fetchOutcomes (newEvents w (g.downloadResults results w).2)).length
        = (g.selectedPairs results).length := by
  induction results generalizing w with
  | nil =>
    simp [GetService.downloadResults, newEvents, fetchOutcomes, GetService.expectedCalls,
      GetService.selectedPairs]
  | cons res rest ih =>
    unfold GetService.downloadResults
    rw [selectedPairs_cons]
    split
    next hname =>
      have hs : g.selects res = false := by
        simp only [GetService.selects]
        simp [hname.1, hname.2]
      simpa [hs] using ih w
    next hname =>
      split
      next hver =>
        have hs : g.selects res = false := by
          simp only [GetService.selects]
          simp [hver.1, hver.2]
        simpa [hs] using ih w
      next hver =>
        have hs : g.selects res = true := by
          simp only [GetService.selects]
          simp only [not_and_or, not_not, ne_eq] at hname hver
          rcases hname with h1 | h1 <;> rcases hver with h2 | h2 <;> simp [h1, h2]
        simp only [hs, if_true]
        obtain ⟨c1, c2⟩ := downloadURLs_calls g res res.chart.urls w hig
        obtain ⟨u1, -, -, u4, -, -⟩ := downloadURLs_events g res res.chart.urls w
        split
        next err w1 h1 =>
          have := u4 hig
          rw [h1] at this
          simp at this
        next w1 h1 =>
          rw [h1] at c1 c2 u1
          dsimp only at c1 c2 u1
          obtain ⟨i1, i2⟩ := ih w1
          have ip := (downloadResults_events g rest w1).1
          rw [newEvents_trans u1 ip, fetchOutcomes_append, List.map_append, c1, i1,
            expectedCalls_append g _ _ _ _ (by simpa using c2)]
          refine ⟨rfl, ?_⟩
          simp [c2, i2]

theorem succeededFetches_get_false (u : GoString) :
    succeededFetches [⟨⟨.httpGet, u⟩, false⟩] = 0 := by
  simp [succeededFetches]

theorem nodup_of_length_le_one {α : Type} (l : List α) (h : l.length ≤ 1) : l.Nodup := by
  match l, h with
  | [], _ => exact List.nodup_nil
  | [a], _ => exact List.nodup_singleton a
  | _ :: _ :: _, h => simp at h

/-- What one write that follows a successful fetch does to the paths. -/
theorem fetch_write_paths (g : GetService) (u p b : GoString) (w : World) :
    (∃ extra, (g.writeFile p b (w.step ⟨.httpGet, u⟩ true w.files)).2.paths
        = w.paths ++ extra ∧ extra.length ≤ 1 ∧ ∀ q ∈ extra, q = p ∧ q ∉ w.paths)
      ∧ (okO (osWriteFile p b 0o666 (w.step ⟨.httpGet, u⟩ true w.files)).1 = true →
          p ∈ (g.writeFile p b (w.step ⟨.httpGet, u⟩ true w.files)).2.paths
            ∧ (p ∉ w.paths →
              (g.writeFile p b (w.step ⟨.httpGet, u⟩ true w.files)).2.paths
                = w.paths ++ [p])) :=
  writeFile_paths_facts g p b (w.step ⟨.httpGet, u⟩ true w.files)

/-- What one pass of the inner loop does to the file system. -/
theorem downloadURLs_files (g : GetService) (res : SearchResult) (us : List GoString)
    (w : World) :
    (∃ extra, (g.downloadURLs res us w).2.paths = w.paths ++ extra
        ∧ extra.length ≤ succeededFetches (newEvents w (g.downloadURLs res us w).2)
        ∧ extra.Nodup
        ∧ ∀ p ∈ extra, p ∉ w.paths
            ∧ p ∈ writePaths (newEvents w (g.downloadURLs res us w).2))
      ∧ (∀ p, (⟨.writeFile, p⟩ : Call) ∈
            succeededCalls (newEvents w (g.downloadURLs res us w).2) →
          p ∈ (g.downloadURLs res us w).2.paths)
      ∧ (writePaths (newEvents w (g.downloadURLs res us w).2)).length
          = succeededFetches (newEvents w (g.downloadURLs res us w).2)
      ∧ ((∀ e ∈ newEvents w (g.downloadURLs res us w).2,
            e.call.op = .writeFile → e.ok = true) →
          (writePaths (newEvents w (g.downloadURLs res us w).2)).Nodup →
          (∀ p ∈ writePaths (newEvents w (g.downloadURLs res us w).2), p ∉ w.paths) →
          (g.downloadURLs res us w).2.paths
            = w.paths ++ writePaths (newEvents w (g.downloadURLs res us w).2)) := by
  induction us generalizing w with
  | nil => simp [GetService.downloadURLs, newEvents, succeededCalls, writePaths,
      succeededFetches]
  | cons u us ih =>
    unfold GetService.downloadURLs
    split
    next err w1 h1 =>
      obtain rfl := httpGet_inv h1
      simp only [okE]
      split
      next hig =>
        have hp : w.trace <+: ((w.step ⟨.httpGet, u⟩ false w.files).printf
            "WARNING: processing chart %s(%s) - %s"
            [.str res.name, .str res.chart.version, .err (some err)]).trace := by simp
        have hev : newEvents w ((w.step ⟨.httpGet, u⟩ false w.files).printf
            "WARNING: processing chart %s(%s) - %s"
            [.str res.name, .str res.chart.version, .err (some err)])
              = [⟨⟨.httpGet, u⟩, false⟩] := by simp [newEvents]
        obtain ⟨⟨extra, i1, i2, iN, i3⟩, i4, i5, i6⟩ :=
          ih ((w.step ⟨.httpGet, u⟩ false w.files).printf
            "WARNING: processing chart %s(%s) - %s"
            [.str res.name, .str res.chart.version, .err (some err)])
        have ip := (downloadURLs_events g res us ((w.step ⟨.httpGet, u⟩ false w.files).printf
            "WARNING: processing chart %s(%s) - %s"
            [.str res.name, .str res.chart.version, .err (some err)])).1
        rw [newEvents_trans hp ip, hev, succeededFetches_append, succeededCalls_append,
          writePaths_append, writePaths_get, succeededFetches_get_false]
        simp only [printf_paths, step_paths, Bool.false_eq_true, if_false] at i1 i3 i6
        refine ⟨⟨extra, i1, by omega, iN, by simpa using i3⟩, ?_, by simpa using i5, ?_⟩
        · intro p hp2
          apply i4 p
          simpa [succeededCalls] using hp2
        · intro h1 h2 h3
          simp only [List.nil_append] at h2 h3 ⊢
          exact i6 (fun e he => h1 e (List.mem_append_right _ he)) h2 h3
      next hig =>
        simp [newEvents, step_paths, succeededCalls, writePaths, succeededFetches]
    next b w1 h1 =>
      obtain rfl := httpGet_inv h1
      simp only [okE]
      obtain ⟨hwp, hwe⟩ := writeFile_newEvents g
        (pathJoin [g.config.name, chartFileName res.chart.name res.chart.version]) b
        (w.step ⟨.httpGet, u⟩ true w.files)
      obtain ⟨⟨ex1, f1, f2, f3⟩, f4⟩ := fetch_write_paths g u
        (pathJoin [g.config.name, chartFileName res.chart.name res.chart.version]) b w
      have hp0 : w.trace <+: (w.step ⟨.httpGet, u⟩ true w.files).trace := by simp
      have hev0 : newEvents w (w.step ⟨.httpGet, u⟩ true w.files) = [⟨⟨.httpGet, u⟩, true⟩] :=
        newEvents_step _ _ _ _
      split
      next err w2 h2 =>
        rw [h2] at hwp hwe f1 f4
        dsimp only at hwp hwe f1 f4 ⊢
        rw [newEvents_trans hp0 hwp, hev0, hwe, succeededFetches_append, succeededCalls_append,
          succeededFetches_get, succeededFetches_write, writePaths_append, writePaths_get,
          writePaths_write]
        refine ⟨⟨ex1, f1, by omega, nodup_of_length_le_one ex1 f2,
          fun p hp2 => ⟨(f3 p hp2).2, by simp [(f3 p hp2).1]⟩⟩, ?_, by simp, ?_⟩
        · intro p hp2
          rw [List.mem_append, mem_succeededCalls_write] at hp2
          rcases hp2 with hp2 | ⟨hok, rfl⟩
          · exact absurd hp2 (mem_succeededCalls_get _ _ _)
          · exact (f4 hok).1
        · intro h1 _ h3
          have hok := h1 _ (List.mem_append_right _ (List.mem_singleton_self _)) rfl
          simp only at hok
          exact (f4 hok).2 (h3 _ (by simp))
      next w2 h2 =>
        rw [h2] at hwp hwe f1 f4
        dsimp only at hwp hwe f1 f4 ⊢
        obtain ⟨⟨extra, i1, i2, iN, i3⟩, i4, i5, i6⟩ := ih w2
        have ip := (downloadURLs_events g res us w2).1
        have hp : w.trace <+: w2.trace := hp0.trans hwp
        rw [newEvents_trans hp ip, newEvents_trans hp0 hwp, hev0, hwe,
          succeededFetches_append, succeededFetches_append, succeededCalls_append,
          succeededCalls_append, writePaths_append, writePaths_append, succeededFetches_get,
          succeededFetches_write, writePaths_get, writePaths_write]
        simp only [List.nil_append, List.singleton_append]
        refine ⟨⟨ex1 ++ extra, by rw [i1, f1, List.append_assoc], ?_, ?_, ?_⟩, ?_, ?_, ?_⟩
        · simp only [List.length_append]
          omega
        · rw [List.nodup_append]
          refine ⟨nodup_of_length_le_one ex1 f2, iN, fun p h1 h2 => ?_⟩
          apply (i3 p h2).1
          rw [f1]
          exact List.mem_append_right _ h1
        · intro p hp2
          rcases List.mem_append.mp hp2 with hp2 | hp2
          · exact ⟨(f3 p hp2).2, by simp [(f3 p hp2).1]⟩
          · refine ⟨fun hin => (i3 p hp2).1 ?_, List.mem_cons_of_mem _ (i3 p hp2).2⟩
            rw [f1]
            exact List.mem_append_left _ hin
        · intro p hp2
          simp only [List.mem_append, mem_succeededCalls_write] at hp2
          rcases hp2 with (hp2 | ⟨hok, rfl⟩) | hp2
          · exact absurd hp2 (mem_succeededCalls_get _ _ _)
          · rw [i1]
            exact List.mem_append_left _ (f4 hok).1
          · exact i4 p hp2
        · simp only [List.length_cons, i5]
          omega
        · intro h1 h2n h3
          have hok := h1 ⟨⟨.writeFile,
            pathJoin [g.config.name, chartFileName res.chart.name res.chart.version]⟩,
            okO (osWriteFile
              (pathJoin [g.config.name, chartFileName res.chart.name res.chart.version]) b 0o666
              (w.step ⟨.httpGet, u⟩ true w.files)).1⟩
            (by simp) rfl
          simp only at hok
          have hw2 := (f4 hok).2 (h3 _ (List.mem_cons_self _ _))
          rw [List.nodup_cons] at h2n
          have hrest := i6 (fun e he => h1 e (List.mem_append_right _ he)) h2n.2
            (fun p hp2 => by
              rw [hw2, List.mem_append, List.mem_singleton]
              rintro (hin | rfl)
              · exact h3 p (List.mem_cons_of_mem _ hp2) hin
              · exact h2n.1 hp2)
          rw [hrest, hw2, List.append_assoc]
          rfl


/-- What the outer loop does to the file system. -/
theorem downloadResults_files (g : GetService) (results : List SearchResult) (w : World) :
    (∃ extra, (g.downloadResults results w).2.paths = w.paths ++ extra
        ∧ extra.length ≤ succeededFetches (newEvents w (g.downloadResults results w).2)
        ∧ extra.Nodup
        ∧ ∀ p ∈ extra, p ∉ w.paths
            ∧ p ∈ writePaths (newEvents w (g.downloadResults results w).2))
      ∧ (∀ p, (⟨.writeFile, p⟩ : Call) ∈
            succeededCalls (newEvents w (g.downloadResults results w).2) →
          p ∈ (g.downloadResults results w).2.paths)
      ∧ (writePaths (newEvents w (g.downloadResults results w).2)).length
          = succeededFetches (newEvents w (g.downloadResults results w).2)
      ∧ ((∀ e ∈ newEvents w (g.downloadResults results w).2,
            e.call.op = .writeFile → e.ok = true) →
          (writePaths (newEvents w (g.downloadResults results w).2)).Nodup →
          (∀ p ∈ writePaths (newEvents w (g.downloadResults results w).2), p ∉ w.paths) →
          (g.downloadResults results w).2.paths
            = w.paths ++ writePaths (newEvents w (g.downloadResults results w).2)) := by
  induction results generalizing w with
  | nil => simp [GetService.downloadResults, newEvents, succeededCalls, writePaths,
      succeededFetches]
  | cons res rest ih =>
    unfold GetService.downloadResults
    split
    next hname => exact ih w
    next hname =>
      split
      next hver => exact ih w
      next hver =>
        obtain ⟨⟨ex1, f1, f2, fN, f3⟩, f4, f5, f6⟩ := downloadURLs_files g res res.chart.urls w
        have fp := (downloadURLs_events g res res.chart.urls w).1
        split
        next err w1 h1 =>
          rw [h1] at f1 f2 f3 f4 f5 f6
          exact ⟨⟨ex1, f1, f2, fN, f3⟩, f4, f5, f6⟩
        next w1 h1 =>
          rw [h1] at f1 f2 f3 f4 f5 f6 fp
          dsimp only at f1 f2 f3 f4 f5 f6 fp
          obtain ⟨⟨extra, i1, i2, iN, i3⟩, i4, i5, i6⟩ := ih w1
          have ip := (downloadResults_events g rest w1).1
          rw [newEvents_trans fp ip, succeededFetches_append, succeededCalls_append,
            writePaths_append]
          refine ⟨⟨ex1 ++ extra, by rw [i1, f1, List.append_assoc], ?_, ?_, ?_⟩, ?_, ?_, ?_⟩
          · simp only [List.length_append]
            omega
          · rw [List.nodup_append]
            refine ⟨fN, iN, fun p h1 h2 => ?_⟩
            apply (i3 p h2).1
            rw [f1]
            exact List.mem_append_right _ h1
          · intro p hp2
            rcases List.mem_append.mp hp2 with hp2 | hp2
            · exact ⟨(f3 p hp2).1, List.mem_append_left _ (f3 p hp2).2⟩
            · refine ⟨fun hin => (i3 p hp2).1 ?_, List.mem_append_right _ (i3 p hp2).2⟩
              rw [f1]
              exact List.mem_append_left _ hin
          · intro p hp2
            rcases List.mem_append.mp hp2 with hp2 | hp2
            · rw [i1]
              exact List.mem_append_left _ (f4 p hp2)
            · exact i4 p hp2
          · simp only [List.length_append, f5, i5]
          · intro h1 h2n h3
            rw [List.nodup_append] at h2n
            obtain ⟨n1, n2, n3⟩ := h2n
            have hw1 := f6 (fun e he => h1 e (List.mem_append_left _ he)) n1
              (fun p hp2 => h3 p (List.mem_append_left _ hp2))
            have hrest := i6 (fun e he => h1 e (List.mem_append_right _ he)) n2
              (fun p hp2 => by
                rw [hw1, List.mem_append]
                rintro (hin | hin)
                · exact h3 p (List.mem_append_right _ hp2) hin
                · exact n3 hin hp2)
            rw [hrest, hw1, List.append_assoc]


theorem writePaths_of_calls (evs : List Event) :
    writePaths evs
      = (((evs.map (fun e => e.call)).filter (fun c => c.op = .writeFile)).map
          (fun c => c.arg)) := by
  induction evs with
  | nil => rfl
  | cons e es ih =>
    unfold writePaths at ih ⊢
    by_cases h : e.call.op = .writeFile
    · simp [List.filter_cons, h, ih]
    · simp [List.filter_cons, h, ih]

theorem fetchedPairs_cons (pair : SearchResult × GoString)
    (pairs : List (SearchResult × GoString)) (b : Bool) (bs : List Bool) :
    fetchedPairs (pair :: pairs) (b :: bs)
      = (if b then [pair] else []) ++ fetchedPairs pairs bs := by
  cases b <;> simp [fetchedPairs]

theorem expectedCalls_writes (g : GetService) (pairs : List (SearchResult × GoString))
    (outs : List Bool) :
    (((g.expectedCalls pairs outs).filter (fun c => c.op = .writeFile)).map (fun c => c.arg))
      = (fetchedPairs pairs outs).map (fun x => g.chartPath x.1) := by
  induction pairs generalizing outs with
  | nil => simp [GetService.expectedCalls, fetchedPairs]
  | cons p ps ih =>
    cases outs with
    | nil => simp [GetService.expectedCalls, fetchedPairs]
    | cons b bs =>
      rw [expectedCalls_cons, fetchedPairs_cons, List.filter_append, List.map_append,
        List.map_append, ih bs]
      cases b <;> simp [GetService.callsOfPair]

theorem succeededFetches_outcomes (evs : List Event) :
    succeededFetches evs = ((fetchOutcomes evs).filter (fun b => b)).length := by
  induction evs with
  | nil => rfl
  | cons e es ih =>
    unfold succeededFetches fetchOutcomes at ih ⊢
    by_cases h : e.call.op = .httpGet
    · cases hk : e.ok <;> simp [List.filter_cons, h, hk, ih]
    · simp [List.filter_cons, h, ih]

theorem fetchedPairs_length (pairs : List (SearchResult × GoString)) (outs : List Bool)
    (h : outs.length = pairs.length) :
    (fetchedPairs pairs outs).length = (outs.filter (fun b => b)).length := by
  induction pairs generalizing outs with
  | nil =>
    cases outs with
    | nil => rfl
    | cons b bs => simp at h
  | cons p ps ih =>
    cases outs with
    | nil => simp at h
    | cons b bs =>
      rw [fetchedPairs_cons, List.length_append, ih bs (by simpa using h)]
      cases b <;> simp [List.filter_cons]
      omega

/-- The paths a run has added, when the paths after it are those before it
followed by new ones. -/
theorem addedPaths_eq (w w1 : World) (extra : List GoString)
    (h : w1.paths = w.paths ++ extra) (hn : ∀ p ∈ extra, p ∉ w.paths) :
    addedPaths w w1 = extra := by
  unfold addedPaths
  rw [h, List.filter_append]
  have h0 : List.filter (fun p => !w.paths.contains p) w.paths = [] := by
    simp [List.filter_eq_nil_iff]
  have h1 : List.filter (fun p => !w.paths.contains p) extra = extra := by
    rw [List.filter_eq_self]
    intro p hp
    simpa using hn p hp
  rw [h0, h1, List.nil_append]

theorem mem_writePaths_succeeded (evs : List Event) (p : GoString)
    (hok : ∀ e ∈ evs, e.call.op = .writeFile → e.ok = true) (hp : p ∈ writePaths evs) :
    (⟨.writeFile, p⟩ : Call) ∈ succeededCalls evs := by
  unfold writePaths at hp
  unfold succeededCalls
  simp only [List.mem_map, List.mem_filter, decide_eq_true_eq] at hp ⊢
  obtain ⟨e, ⟨he, hop⟩, harg⟩ := hp
  refine ⟨e, ⟨he, hok e he hop⟩, ?_⟩
  obtain ⟨⟨op, arg⟩, ok⟩ := e
  simp only at hop harg
  rw [hop, harg]

/-- The length of a duplicate-free list whose members are the members of `ws`
that are not in `old`. -/
theorem length_fresh_distinct (extra ws old : List GoString) (hN : extra.Nodup)
    (hmem : ∀ p, p ∈ extra ↔ p ∉ old ∧ p ∈ ws) :
    extra.length = ((ws.filter (fun p => !old.contains p)).dedup).length
      ∧ (extra.length = ws.length ↔ ws.Nodup ∧ ∀ p ∈ ws, p ∉ old) := by
  have hperm : extra.Perm ((ws.filter (fun p => !old.contains p)).dedup) := by
    rw [List.perm_ext_iff_of_nodup hN (List.nodup_dedup _)]
    intro p
    rw [hmem p, List.mem_dedup, List.mem_filter]
    simp [and_comm]
  have hlen := hperm.length_eq
  have hs1 : List.Sublist ((ws.filter (fun p => !old.contains p)).dedup)
      (ws.filter (fun p => !old.contains p)) := List.dedup_sublist _
  have hs2 : List.Sublist (ws.filter (fun p => !old.contains p)) ws := List.filter_sublist _
  refine ⟨hlen, ?_, ?_⟩
  · intro h
    have l1 := hs1.length_le
    have l2 := hs2.length_le
    have hF : ws.filter (fun p => !old.contains p) = ws := hs2.eq_of_length (by omega)
    have hD : (ws.filter (fun p => !old.contains p)).dedup
        = ws.filter (fun p => !old.contains p) := hs1.eq_of_length (by omega)
    rw [hF] at hD
    refine ⟨List.dedup_eq_self.1 hD, fun p hp => ?_⟩
    have := List.filter_eq_self.1 hF p hp
    simpa using this
  · rintro ⟨hnd, hfresh⟩
    have hF : ws.filter (fun p => !old.contains p) = ws := by
      rw [List.filter_eq_self]
      intro p hp
      simpa using hfresh p hp
    rw [hlen, hF, List.dedup_eq_self.2 hnd]

/-- A failing write and the files: with errors ignored, one selected entry and
one served URL, a write that fails at the open adds no file (`exWorld [1]`),
and a write that fails after the open leaves `/d/c-1.tgz` behind, empty
(`exTornWorld`); in both the fetch did not fail and no write succeeded. -/
theorem failed_write_files :
    succeededFetches (newEvents (exWorld [1])
        ((exService true "" "" "").downloadResults
          [exResult "c" "1" ["http://h/c-1.tgz"]] (exWorld [1])).2) = 1
      ∧ addedPaths (exWorld [1])
          ((exService true "" "" "").downloadResults
            [exResult "c" "1" ["http://h/c-1.tgz"]] (exWorld [1])).2 = []
      ∧ succeededFetches (newEvents exTornWorld
          ((exService true "" "" "").downloadResults
            [exResult "c" "1" ["http://h/c-1.tgz"]] exTornWorld).2) = 1
      ∧ succeededCalls (newEvents exTornWorld
          ((exService true "" "" "").downloadResults
            [exResult "c" "1" ["http://h/c-1.tgz"]] exTornWorld).2)
          = [⟨.httpGet, "http://h/c-1.tgz".toList⟩]
      ∧ addedPaths exTornWorld
          ((exService true "" "" "").downloadResults
            [exResult "c" "1" ["http://h/c-1.tgz"]] exTornWorld).2
          = ["/d/c-1.tgz".toList]
      ∧ lookupFile "/d/c-1.tgz".toList
          ((exService true "" "" "").downloadResults
            [exResult "c" "1" ["http://h/c-1.tgz"]] exTornWorld).2.files
          = some ⟨[], 0o644⟩ := by
  decide

/-! ## The claims -/

/-- C1: `sanitizeImageString` removes the first two double-quote characters,
trims, removes one leading "-", trims, removes the leading prefix "image: " and
trims, in this order; on the two lines of the specification it yields
`nginx:1.14.2` and `redis:6`. -/
theorem sanitizeImageString_steps :
    (∀ s : GoString, sanitizeImageString s
      = trimSpace (trimPrefix (trimSpace (trimPrefix (trimSpace ((s.erase dquote).erase dquote))
          "-".toList)) "image: ".toList))
    ∧ sanitizeImageString "    image: \"nginx:1.14.2\"".toList = "nginx:1.14.2".toList
    ∧ sanitizeImageString "  - image: redis:6".toList = "redis:6".toList :=
  ⟨sanitizeImageString_eq, by decide, by decide⟩

/-- C2, as stated, fails: a line with three double quotes keeps one after the
first sanitization and loses it in the second. -/
theorem sanitizeImageString_not_idempotent :
    sanitizeImageString (sanitizeImageString "image: \"\"\"x".toList)
      ≠ sanitizeImageString "image: \"\"\"x".toList := by
  decide

/-- C2, amended: re-sanitizing a sanitized string is a no-op exactly when the
sanitized string holds no double quote and starts neither with "-" nor with
"image: ". -/
theorem sanitizeImageString_idempotent_iff (s : GoString) :
    sanitizeImageString (sanitizeImageString s) = sanitizeImageString s
      ↔ (dquote ∉ sanitizeImageString s
          ∧ hasPrefix (sanitizeImageString s) "-".toList = false
          ∧ hasPrefix (sanitizeImageString s) "image: ".toList = false) := by
  constructor
  · exact sanitizeImageString_fixed_inv _
  · rintro ⟨hq, hd, hi⟩
    exact sanitizeImageString_fixed _ (sanitizeImageString_trimmed s) hq hd hi

/-- C3, as stated, fails: the pairs ("a-b", "c") and ("a", "b-c") differ and
share the archive file name `a-b-c.tgz`. -/
theorem chartFileName_collision :
    ("a-b".toList, "c".toList) ≠ ("a".toList, "b-c".toList)
      ∧ chartFileName "a-b".toList "c".toList = chartFileName "a".toList "b-c".toList := by
  decide

/-- C3, amended: two different (name, version) pairs get different archive
file names provided the two names have the same length (in particular when
they are the same name), or the two versions have the same length, or neither
name holds a "-", or neither version holds a "-". -/
theorem chartFileName_injective (n1 v1 n2 v2 : GoString)
    (hside : n1.length = n2.length ∨ v1.length = v2.length
      ∨ ('-' ∉ n1 ∧ '-' ∉ n2) ∨ ('-' ∉ v1 ∧ '-' ∉ v2))
    (hne : (n1, v1) ≠ (n2, v2)) :
    chartFileName n1 v1 ≠ chartFileName n2 v2 := by
  intro heq
  rw [chartFileName_eq_iff] at heq
  have key : n1 = n2 ∧ v1 = v2 := by
    rcases hside with h | h | h | h
    · have := List.append_inj heq h
      exact ⟨this.1, by simpa using this.2⟩
    · have := List.append_inj' heq (by simpa using h)
      exact ⟨this.1, by simpa using this.2⟩
    · exact dash_split_left n1 v1 n2 v2 h.1 h.2 heq
    · exact dash_split_right n1 v1 n2 v2 h.1 h.2 heq
  exact hne (by rw [key.1, key.2])

/-- A use of the amended C3: the two versions of chart2 in the end-to-end
scenario of the specification get different archive file names. -/
theorem chartFileName_injective_witness :
    chartFileName "chart2".toList "1.0.0".toList
      ≠ chartFileName "chart2".toList "0.0.0-rc1".toList :=
  chartFileName_injective "chart2".toList "1.0.0".toList "chart2".toList "0.0.0-rc1".toList
    (Or.inl rfl) (by decide)

/-- C4, as stated, fails: with errors ignored and an empty destination, one
selected entry with two reachable URLs gives two fetches that did not fail and
one archive file, both downloads being written to `/d/c-1.tgz`. -/
theorem archives_fewer_than_fetches :
    (exService true "" "" "").ignoreErrors = true
      ∧ (exService true "" "" "").selectedURLs
          [exResult "c" "1" ["http://h/c-1.tgz", "http://m/c-1.tgz"]]
          = ["http://h/c-1.tgz".toList, "http://m/c-1.tgz".toList]
      ∧ succeededFetches (newEvents (exWorld [])
          ((exService true "" "" "").downloadResults
            [exResult "c" "1" ["http://h/c-1.tgz", "http://m/c-1.tgz"]] (exWorld [])).2) = 2
      ∧ addedPaths (exWorld [])
          ((exService true "" "" "").downloadResults
            [exResult "c" "1" ["http://h/c-1.tgz", "http://m/c-1.tgz"]] (exWorld [])).2
          = ["/d/c-1.tgz".toList] := by
  decide

/-- C4, amended: with errors ignored, the download loop returns no error and
fetches every URL of every selected result; the calls it issues are, for each
(selected entry, URL) pair in loop order, the fetch of the URL followed, when
the fetch did not fail, by one write at `name-version.tgz` of the entry under
the destination directory.  The archive files it adds are pairwise different
paths among those written, every not yet present path with a successful write
among them, and their number is at most the number of pairs whose fetch did
not fail.  When no write fails, the added files are the written paths not yet
present, counted once each, and their number equals the number of pairs whose
fetch did not fail exactly when the written paths are pairwise different and
none was present before. -/
theorem downloadResults_archives (g : GetService) (results : List SearchResult) (w : World)
    (hig : g.ignoreErrors = true) :
    (g.downloadResults results w).1 = none
      ∧ fetchedURLs (newEvents w (g.downloadResults results w).2) = g.selectedURLs results
      ∧ (newEvents w (g.downloadResults results w).2).map (fun e => e.call)
          = g.expectedCalls (g.selectedPairs results)
              (fetchOutcomes (newEvents w (g.downloadResults results w).2))
      ∧ (fetchOutcomes (newEvents w (g.downloadResults results w).2)).length
          = (g.selectedPairs results).length
      ∧ succeededFetches (newEvents w (g.downloadResults results w).2)
          = (fetchedPairs (g.selectedPairs results)
              (fetchOutcomes (newEvents w (g.downloadResults results w).2))).length
      ∧ writePaths (newEvents w (g.downloadResults results w).2)
          = (fetchedPairs (g.selectedPairs results)
              (fetchOutcomes (newEvents w (g.downloadResults results w).2))).map
                (fun pair => g.chartPath pair.1)
      ∧ (addedPaths w (g.downloadResults results w).2).Nodup
      ∧ (∀ p ∈ addedPaths w (g.downloadResults results w).2,
          p ∈ writePaths (newEvents w (g.downloadResults results w).2))
      ∧ (∀ p, (⟨.writeFile, p⟩ : Call) ∈
            succeededCalls (newEvents w (g.downloadResults results w).2) →
          p ∉ w.paths → p ∈ addedPaths w (g.downloadResults results w).2)
      ∧ (addedPaths w (g.downloadResults results w).2).length
          ≤ succeededFetches (newEvents w (g.downloadResults results w).2)
      ∧ ((∀ e ∈ newEvents w (g.downloadResults results w).2,
            e.call.op = .writeFile → e.ok = true) →
          (∀ p, p ∈ addedPaths w (g.downloadResults results w).2 ↔
            p ∉ w.paths ∧ p ∈ writePaths (newEvents w (g.downloadResults results w).2))
          ∧ (addedPaths w (g.downloadResults results w).2).length
              = (((writePaths (newEvents w (g.downloadResults results w).2)).filter
                  (fun p => !w.paths.contains p)).dedup).length
          ∧ ((addedPaths w (g.downloadResults results w).2).length
                = succeededFetches (newEvents w (g.downloadResults results w).2)
              ↔ (writePaths (newEvents w (g.downloadResults results w).2)).Nodup
                ∧ ∀ p ∈ writePaths (newEvents w (g.downloadResults results w).2),
                    p ∉ w.paths)) := by
  obtain ⟨-, -, e3, e4, -, -⟩ := downloadResults_events g results w
  obtain ⟨c1, c2⟩ := downloadResults_calls g results w hig
  obtain ⟨⟨extra, f1, f2, fN, f3⟩, f4, f5, -⟩ := downloadResults_files g results w
  have hA : addedPaths w (g.downloadResults results w).2 = extra :=
    addedPaths_eq _ _ _ f1 (fun p hp => (f3 p hp).1)
  have hW : writePaths (newEvents w (g.downloadResults results w).2)
      = (fetchedPairs (g.selectedPairs results)
          (fetchOutcomes (newEvents w (g.downloadResults results w).2))).map
            (fun pair => g.chartPath pair.1) := by
    rw [writePaths_of_calls, c1, expectedCalls_writes]
  have hS : succeededFetches (newEvents w (g.downloadResults results w).2)
      = (fetchedPairs (g.selectedPairs results)
          (fetchOutcomes (newEvents w (g.downloadResults results w).2))).length := by
    rw [succeededFetches_outcomes, fetchedPairs_length _ _ c2]
  have hfresh : ∀ p, (⟨.writeFile, p⟩ : Call) ∈
        succeededCalls (newEvents w (g.downloadResults results w).2) →
      p ∉ w.paths → p ∈ extra := by
    intro p hp hn
    have hin := f4 p hp
    rw [f1, List.mem_append] at hin
    exact hin.resolve_left hn
  rw [hA]
  refine ⟨e4 hig, e3 (e4 hig), c1, c2, hS, hW, fN, fun p hp => (f3 p hp).2, hfresh, f2,
    fun hok => ?_⟩
  have hmem : ∀ p, p ∈ extra ↔
      p ∉ w.paths ∧ p ∈ writePaths (newEvents w (g.downloadResults results w).2) :=
    fun p => ⟨fun hp => f3 p hp,
      fun hp => hfresh p (mem_writePaths_succeeded _ p hok hp.2) hp.1⟩
  obtain ⟨l1, l2⟩ := length_fresh_distinct extra
    (writePaths (newEvents w (g.downloadResults results w).2)) w.paths fN hmem
  rw [f5] at l2
  exact ⟨hmem, l1, l2⟩

/-- A use of the amended C4: of two selected entries, the first with a served
and an unserved URL, the second with a served URL, no write fails and the
written paths `/d/c-1.tgz` and `/d/d-2.tgz` are different and new, so the
number of archive files added is the number of fetches that did not fail. -/
theorem downloadResults_archives_witness :
    (addedPaths (exWorld [])
        ((exService true "" "" "").downloadResults
          [exResult "c" "1" ["http://h/c-1.tgz", "http://h/d-2.tgz"],
            exResult "d" "2" ["http://m/c-1.tgz"]] (exWorld [])).2).length
      = succeededFetches (newEvents (exWorld [])
        ((exService true "" "" "").downloadResults
          [exResult "c" "1" ["http://h/c-1.tgz", "http://h/d-2.tgz"],
            exResult "d" "2" ["http://m/c-1.tgz"]] (exWorld [])).2) :=
  ((downloadResults_archives (exService true "" "" "")
    [exResult "c" "1" ["http://h/c-1.tgz", "http://h/d-2.tgz"],
      exResult "d" "2" ["http://m/c-1.tgz"]] (exWorld []) rfl).2.2.2.2.2.2.2.2.2.2
        (by decide)).2.2.mpr ⟨by decide, by decide⟩

/-- C5, as stated, fails: in strict mode (errors not ignored), with chart name
`chart2` and version `7.0.0` given and no result of that version, `Get` fetches
nothing and returns no error. -/
theorem Get_strict_no_match_succeeds :
    (exService false "" "chart2" "7.0.0").ignoreErrors = false
      ∧ (∀ r ∈ [exResult "chart2" "1.0.0" ["http://h/c-1.tgz"]],
          r.chart.version ≠ (exService false "" "chart2" "7.0.0").chartVersion)
      ∧ ((exService false "" "chart2" "7.0.0").Get
          (exHelm [exResult "chart2" "1.0.0" ["http://h/c-1.tgz"]]) (exWorld [])).1 = none := by
  decide

/-- C5, amended: when an exact chart version is given and no search result has
that version, `Get` performs no archive download and returns what
`prepareIndexFile` returns on the untouched world, whatever `ignoreErrors` is. -/
theorem Get_no_matching_version (g : GetService) (h : HelmRepo) (w : World)
    (indexFilePath : GoString) (results : List SearchResult)
    (h1 : h.newChartRepository = none) (h2 : h.downloadIndexFile = .ok indexFilePath)
    (h3 : h.loadIndexFile = none)
    (h4 : h.search (g.allVersions || g.chartVersion ≠ [])
      ("^.*".toList ++ g.chartName ++ ".*".toList) = .ok results)
    (hver : g.chartVersion ≠ [])
    (hno : ∀ r ∈ results, r.chart.version ≠ g.chartVersion) :
    g.Get h w = { g with indexFilePath := indexFilePath }.prepareIndexFile w
      ∧ fetchedURLs (newEvents w (g.Get h w).2) = [] := by
  have hloop : ∀ rs : List SearchResult, (∀ r ∈ rs, r.chart.version ≠ g.chartVersion) →
      g.downloadResults rs w = (none, w) := by
    intro rs
    induction rs with
    | nil => intro _; rfl
    | cons r rs ih =>
      intro hrs
      unfold GetService.downloadResults
      have hr := hrs r (List.mem_cons_self _ _)
      have ih2 := ih (fun r2 hr2 => hrs r2 (List.mem_cons_of_mem _ hr2))
      split
      · exact ih2
      · rw [if_pos ⟨hver, hr⟩]
        exact ih2
  have hget : g.Get h w = { g with indexFilePath := indexFilePath }.prepareIndexFile w := by
    unfold GetService.Get
    simp only [h1, h2, h3, h4, hloop results hno]
  refine ⟨hget, ?_⟩
  rw [hget]
  obtain ⟨-, hev, -⟩ := prepareIndexFile_run { g with indexFilePath := indexFilePath } w
  unfold fetchedURLs
  rw [List.map_eq_nil_iff, List.filter_eq_nil_iff]
  intro e he
  simpa using hev e he

/-- A use of the amended C5 in strict mode. -/
theorem Get_no_matching_version_witness :
    (exService false "" "chart2" "7.0.0").Get
        (exHelm [exResult "chart2" "1.0.0" ["http://h/c-1.tgz"]]) (exWorld [])
      = { exService false "" "chart2" "7.0.0" with
          indexFilePath := "/cache/index.yaml".toList }.prepareIndexFile (exWorld [])
      ∧ fetchedURLs (newEvents (exWorld []) ((exService false "" "chart2" "7.0.0").Get
        (exHelm [exResult "chart2" "1.0.0" ["http://h/c-1.tgz"]]) (exWorld [])).2) = [] :=
  Get_no_matching_version (exService false "" "chart2" "7.0.0")
    (exHelm [exResult "chart2" "1.0.0" ["http://h/c-1.tgz"]]) (exWorld [])
    "/cache/index.yaml".toList [exResult "chart2" "1.0.0" ["http://h/c-1.tgz"]]
    rfl rfl rfl rfl (by decide) (by decide)

/-- C6, as stated, fails: the name of `chart2` contains the configured name
`chart` as a substring, no version is configured, and its URL is not fetched. -/
theorem substring_match_not_downloaded :
    "chart".toList <:+: (exResult "chart2" "1.0.0" ["http://h/c-1.tgz"]).chart.name
      ∧ (exService true "" "chart" "").chartVersion = []
      ∧ fetchedURLs (newEvents (exWorld [])
          ((exService true "" "chart" "").downloadResults
            [exResult "chart2" "1.0.0" ["http://h/c-1.tgz"]] (exWorld [])).2) = [] := by
  decide

/-- C6, amended: the loop of `Get` selects a search result when its chart name
equals the configured name (any name when none is configured) and its version
equals the configured version (any version when none is configured); the URLs
it fetches are, in order, a prefix of the URLs of the selected results, and all
of them when errors are ignored or the loop ends without error; the URLs of the
other results are not fetched. -/
theorem downloadResults_exact_filter (g : GetService) (results : List SearchResult)
    (w : World) :
    (∀ res, g.selects res = true ↔
        (g.chartName = [] ∨ res.chart.name = g.chartName)
          ∧ (g.chartVersion = [] ∨ res.chart.version = g.chartVersion))
      ∧ fetchedURLs (newEvents w (g.downloadResults results w).2) <+: g.selectedURLs results
      ∧ (g.ignoreErrors = true ∨ (g.downloadResults results w).1 = none →
          fetchedURLs (newEvents w (g.downloadResults results w).2)
            = g.selectedURLs results) := by
  obtain ⟨-, e2, e3, e4, -, -⟩ := downloadResults_events g results w
  refine ⟨fun res => ?_, e2, fun h => ?_⟩
  · simp only [GetService.selects]
    by_cases h1 : g.chartName = [] <;> by_cases h2 : g.chartVersion = [] <;> simp [h1, h2]
  · rcases h with h | h
    · exact e3 (e4 h)
    · exact e3 h

/-- A use of the amended C6: with the name `chart2` configured, the URL of
`chart2` is fetched and the URL of `chart` is not. -/
theorem downloadResults_exact_filter_witness :
    fetchedURLs (newEvents (exWorld []) ((exService true "" "chart2" "").downloadResults
        [exResult "chart" "1.0.0" ["http://m/c-1.tgz"],
          exResult "chart2" "1.0.0" ["http://h/c-1.tgz"]] (exWorld [])).2)
      = (exService true "" "chart2" "").selectedURLs
        [exResult "chart" "1.0.0" ["http://m/c-1.tgz"],
          exResult "chart2" "1.0.0" ["http://h/c-1.tgz"]]
      ∧ (exService true "" "chart2" "").selectedURLs
        [exResult "chart" "1.0.0" ["http://m/c-1.tgz"],
          exResult "chart2" "1.0.0" ["http://h/c-1.tgz"]] = ["http://h/c-1.tgz".toList] :=
  ⟨(downloadResults_exact_filter (exService true "" "chart2" "")
    [exResult "chart" "1.0.0" ["http://m/c-1.tgz"],
      exResult "chart2" "1.0.0" ["http://h/c-1.tgz"]] (exWorld [])).2.2 (Or.inl rfl),
    by decide⟩

/-- C7, as stated, fails: with errors ignored, the write of the rewritten index
fails (second call of the run) and `prepareIndexFile` returns no error. -/
theorem index_write_failure_ignored :
    ((exService true "http://n" "" "").prepareIndexFile (exWorld [1])).1 = none
      ∧ (⟨⟨.writeFile, "/cache/index.yaml".toList⟩, false⟩ : Event) ∈ newEvents (exWorld [1])
          ((exService true "http://n" "" "").prepareIndexFile (exWorld [1])).2 := by
  decide

/-- C7, amended: for both values of `ignoreErrors`, `prepareIndexFile` returns
a non-nil error when reading the index fails or when the open, create, copy,
sync, stat or chmod step of `moveFile` fails; when writing the rewritten index
fails it returns a non-nil error if `ignoreErrors` is false.  So does every run
of `Get` whose download loop hands this world to `prepareIndexFile`. -/
theorem prepareIndexFile_errors_fatal (g : GetService) (w : World)
    (hfail : ∃ e ∈ newEvents w (g.prepareIndexFile w).2, e.ok = false
      ∧ (e.call.op ∈ [Op.readFile, Op.open, Op.create, Op.copy, Op.sync, Op.stat, Op.chmod]
          ∨ (e.call.op = Op.writeFile ∧ g.ignoreErrors = false))) :
    (g.prepareIndexFile w).1 ≠ none
      ∧ ∀ (g0 : GetService) (h : HelmRepo) (w0 : World) (results : List SearchResult),
          { g0 with indexFilePath := g.indexFilePath } = g →
          h.newChartRepository = none → h.downloadIndexFile = .ok g.indexFilePath →
          h.loadIndexFile = none →
          h.search (g0.allVersions || g0.chartVersion ≠ [])
            ("^.*".toList ++ g0.chartName ++ ".*".toList) = .ok results →
          g0.downloadResults results w0 = (none, w) →
          (g0.Get h w0).1 ≠ none := by
  have key : (g.prepareIndexFile w).1 ≠ none := by
    intro hn
    obtain ⟨e, he, hf, hop⟩ := hfail
    obtain ⟨-, -, h3⟩ := prepareIndexFile_run g w
    rcases h3 hn e he hf with h | h | ⟨h, hg⟩
    · rw [h] at hop
      simp at hop
    · rw [h] at hop
      simp at hop
    · rw [h] at hop
      simp [hg] at hop
  refine ⟨key, fun g0 h w0 results hg h1 h2 h3 h4 hloop => ?_⟩
  have hget : g0.Get h w0 = g.prepareIndexFile w := by
    unfold GetService.Get
    simp only [h1, h2, h3, h4, hloop, hg]
  rw [hget]
  exact key

/-- A use of the amended C7: with errors ignored, the chmod step of `moveFile`
fails (ninth call of the run) and `prepareIndexFile` returns an error. -/
theorem prepareIndexFile_errors_fatal_witness :
    ((exService true "http://n" "" "").prepareIndexFile (exWorld [8])).1 ≠ none :=
  (prepareIndexFile_errors_fatal (exService true "http://n" "" "") (exWorld [8])
    ⟨⟨⟨.chmod, "/d/index.yaml".toList⟩, false⟩, by decide, rfl, Or.inl (by decide)⟩).1

/-- C8: `writeFile` returns nil whatever the outcome of the write when errors
are ignored, and returns exactly the result of `os.WriteFile` (nil on success,
its error on failure) otherwise; in both cases the file system is the one the
write has left. -/
theorem writeFile_dichotomy (g : GetService) (name content : GoString) (w : World) :
    ({ g with ignoreErrors := true }.writeFile name content w).1 = none
      ∧ ({ g with ignoreErrors := false }.writeFile name content w).1
          = (osWriteFile name content 0o666 w).1
      ∧ ((osWriteFile name content 0o666 w).1 = none ↔ w.canCreate name = true)
      ∧ (g.writeFile name content w).2.files = (osWriteFile name content 0o666 w).2.files := by
  refine ⟨?_, ?_, ?_, (writeFile_run g name content w).2.2⟩
  · simpa using (writeFile_run { g with ignoreErrors := true } name content w).1
  · simpa using (writeFile_run { g with ignoreErrors := false } name content w).1
  · unfold osWriteFile
    split <;> simp_all

/-- C9: with a new root URL and a readable index, `prepareIndexFile` writes
back, at the path of the downloaded index, its bytes with every occurrence of
the origin URL replaced by the new root URL, and then relocates the file; the
number of substitutions is the number of occurrences of the origin URL; when no
call of the run fails, `index.yaml` of the destination holds these rewritten
bytes.  Without a new root URL, `prepareIndexFile` is the relocation alone: it
issues no read and no write. -/
theorem prepareIndexFile_rewrite (g : GetService) (w : World) :
    (g.newRootURL ≠ [] → w.canUse g.indexFilePath = true →
        g.prepareIndexFile w
          = (match g.writeFile g.indexFilePath
              (substituteAll g.config.url g.newRootURL 0 (w.contentOf g.indexFilePath))
              (w.step ⟨.readFile, g.indexFilePath⟩ true w.files) with
            | (some err, w2) => (some err, w2)
            | (none, w2) =>
              moveFile g.indexFilePath (pathJoin [g.config.name, indexFileName]) w2))
      ∧ bytesReplaceCount (w.contentOf g.indexFilePath) g.config.url (-1)
          = occurrences g.config.url 0 (w.contentOf g.indexFilePath)
      ∧ (g.newRootURL ≠ [] → failedCalls (newEvents w (g.prepareIndexFile w).2) = [] →
          (g.prepareIndexFile w).1 = none
            ∧ (g.prepareIndexFile w).2.contentOf (pathJoin [g.config.name, indexFileName])
              = substituteAll g.config.url g.newRootURL 0 (w.contentOf g.indexFilePath))
      ∧ (g.newRootURL = [] →
          g.prepareIndexFile w
            = moveFile g.indexFilePath (pathJoin [g.config.name, indexFileName]) w
          ∧ ∀ e ∈ newEvents w (g.prepareIndexFile w).2,
              e.call.op ≠ .readFile ∧ e.call.op ≠ .writeFile) := by
  refine ⟨fun hnew hread => ?_, (bytesReplace_all _ _ g.newRootURL).2, prepareIndexFile_ok g w,
    fun hnew => ?_⟩
  · unfold GetService.prepareIndexFile
    dsimp only
    rw [if_pos hnew, ← (bytesReplace_all _ _ _).1]
    simp [osReadFile, hread]
  · have heq : g.prepareIndexFile w
        = moveFile g.indexFilePath (pathJoin [g.config.name, indexFileName]) w := by
      unfold GetService.prepareIndexFile
      simp [hnew]
    refine ⟨heq, fun e he => ?_⟩
    rw [heq] at he
    obtain ⟨-, h2, -⟩ := moveFile_run g.indexFilePath (pathJoin [g.config.name, indexFileName]) w
    exact ⟨(h2 e he).2.2, (h2 e he).2.1⟩

/-- A use of C9: the index of the example world, rewritten from `http://h` to
`http://n`, ends at `/d/index.yaml` with both of its URLs replaced. -/
theorem prepareIndexFile_rewrite_witness :
    ((exService false "http://n" "" "").prepareIndexFile (exWorld [])).2.contentOf
        "/d/index.yaml".toList = "urls: http://n/c-1.tgz http://n/d-2.tgz".toList
      ∧ occurrences "http://h".toList 0 "urls: http://h/c-1.tgz http://h/d-2.tgz".toList = 2 :=
  ⟨((prepareIndexFile_rewrite (exService false "http://n" "" "") (exWorld [])).2.2.1
      (by decide) (by decide)).2.trans (by decide), by decide⟩

/-- C10: `moveFile` of a path onto itself returns nil and leaves the world as
it was: no call is issued, so no file is opened, created, copied, removed or
changed in mode, and every file keeps its content and its permissions. -/
theorem moveFile_same_path (p : GoString) (w : World) :
    moveFile p p w = (none, w)
      ∧ newEvents w (moveFile p p w).2 = []
      ∧ (moveFile p p w).2.files = w.files := by
  simp [moveFile, newEvents]

/-- C11, as stated, fails: the target is a directory, its whole-directory
processing fails with `cannot load /charts`, its walk meets no file whose name
contains `.tgz`, and `processDirectory` returns the error of the walk on the
unreadable subdirectory, not the error of the whole-directory processing; so
for both values of `ignoreErrors`. -/
theorem processDirectory_returns_walk_error :
    (exImagesEnv exUnreadableTree "").stat (exImages true).target = .ok true
      ∧ ((exImages true).processTarget (exImagesEnv exUnreadableTree "") "/charts".toList).1
        = some ⟨"cannot load /charts"⟩
      ∧ ((exImages false).processTarget (exImagesEnv exUnreadableTree "") "/charts".toList).1
        = some ⟨"cannot load /charts"⟩
      ∧ exUnreadableTree.archivePaths "/charts".toList (basename "/charts".toList) = []
      ∧ ((exImages true).processDirectory (exImagesEnv exUnreadableTree "")
          "/charts".toList).1 = some ⟨"open /charts/sub: permission denied"⟩
      ∧ ((exImages false).processDirectory (exImagesEnv exUnreadableTree "")
          "/charts".toList).1 = some ⟨"open /charts/sub: permission denied"⟩ :=
  ⟨rfl, by decide⟩

/-- C11, amended: for a directory target whose whole-directory processing fails
with error `e` and whose walk meets no entry it cannot read and no file whose
name contains `.tgz`, `processDirectory` returns exactly `e`, whatever
`ignoreErrors` is, and so does `Images` on that target; if the whole-directory
processing succeeds, `processDirectory` returns nil in the state that
processing left, without walking. -/
theorem processDirectory_whole_directory (i : ImagesService) (env : ImagesEnv)
    (target : GoString) (hstat : env.stat i.target = .ok true) :
    (∀ e, (i.processTarget env target).1 = some e →
        (env.tree target).archivePaths target (basename target) = [] →
        (env.tree target).hasWalkError = false →
        (i.processDirectory env target).1 = some e
          ∧ (target = i.target → (i.Images env).1 = some e))
      ∧ ((i.processTarget env target).1 = none →
        i.processDirectory env target = (none, (i.processTarget env target).2)) := by
  have hdir : ∀ e, (i.processTarget env target).1 = some e →
      (env.tree target).archivePaths target (basename target) = [] →
      (env.tree target).hasWalkError = false →
      (i.processDirectory env target).1 = some e := by
    intro e he hnone hwalk
    unfold ImagesService.processDirectory
    rw [hstat]
    obtain ⟨r, i1, hpt⟩ : ∃ r i1, i.processTarget env target = (r, i1) := ⟨_, _, rfl⟩
    rw [hpt] at he
    simp only at he
    subst he
    simp only [Bool.not_true, Bool.false_eq_true, if_false, hpt, filepathWalk]
    rw [walk_quiet env target (env.tree target) target (basename target) (i1, false) hnone hwalk]
    rfl
  refine ⟨fun e he hnone hwalk => ⟨hdir e he hnone hwalk, fun ht => ?_⟩, fun hok => ?_⟩
  · subst ht
    have h := hdir e he hnone hwalk
    unfold ImagesService.Images
    rw [hstat]
    obtain ⟨r, i1, hpd⟩ : ∃ r i1, i.processDirectory env i.target = (r, i1) := ⟨_, _, rfl⟩
    rw [hpd] at h
    simp only at h
    subst h
    simp [hpd]
  · unfold ImagesService.processDirectory
    rw [hstat]
    obtain ⟨r, i1, hpt⟩ : ∃ r i1, i.processTarget env target = (r, i1) := ⟨_, _, rfl⟩
    rw [hpt] at hok
    simp only at hok
    subst hok
    simp [hpt]

/-- A use of the amended C11: on an empty directory that is not a chart,
`processDirectory` and `Images` return the error of the whole-directory
processing. -/
theorem processDirectory_whole_directory_witness :
    ((exImages true).processDirectory (exImagesEnv (.dir .nil) "") "/charts".toList).1
        = some ⟨"cannot load /charts"⟩
      ∧ ((exImages true).Images (exImagesEnv (.dir .nil) "")).1
        = some ⟨"cannot load /charts"⟩ :=
  ⟨((processDirectory_whole_directory (exImages true) (exImagesEnv (.dir .nil) "")
      "/charts".toList rfl).1 ⟨"cannot load /charts"⟩ (by decide) (by decide)
      (by decide)).1,
    ((processDirectory_whole_directory (exImages true) (exImagesEnv (.dir .nil) "")
      "/charts".toList rfl).1 ⟨"cannot load /charts"⟩ (by decide) (by decide)
      (by decide)).2 (by decide)⟩

/-- C12, as stated, fails: the null inside the sequence at key `args` is still
there after `cleanUp`. -/
theorem cleanUp_keeps_null_in_sequence :
    (cleanUp (.cons "args".toList (.seq (.cons .null .nil)) .nil)).hasNull = true := by
  decide

/-- C12, amended: `cleanUp` replaces by the empty string every null that is the
value of a key of the map or of a map nested in it through maps only, and keeps
the keys, the nesting, every non-null scalar and every sequence as they are (a
nested map is stored back as a plain map); the result contains a null exactly
when a sequence of the given tree contains one. -/
theorem cleanUp_cleans_maps (m : Entries) :
    m.CleanedFrom (cleanUp m) ∧ (cleanUp m).hasNull = m.hasNullInSeq :=
  ⟨cleanUp_cleanedFrom m, cleanUp_hasNull m⟩

/-- C13 fails on the code: the directory `/charts` holds one archive, at
`/charts/sub/app-1.0.0.tgz`, where the walk visits it; `processDirectory` gives
`processTarget` the path `/charts/app-1.0.0.tgz` instead.  In strict mode it
returns the load error of that path; with errors ignored `Images` returns nil
with an empty buffer although the archive at its own path renders an image.
An archive directly in `/charts` is given to `processTarget` at its own path. -/
theorem processDirectory_nested_archive_path :
    exNestedTree.archivePaths "/charts".toList (basename "/charts".toList)
        = ["/charts/sub/app-1.0.0.tgz".toList]
      ∧ ((exImages false).processDirectory
          (exImagesEnv exNestedTree "/charts/sub/app-1.0.0.tgz") "/charts".toList).2.loaded
        = ["/charts".toList, "/charts/app-1.0.0.tgz".toList]
      ∧ ((exImages false).processDirectory
          (exImagesEnv exNestedTree "/charts/sub/app-1.0.0.tgz") "/charts".toList).1
        = some ⟨"cannot load /charts/app-1.0.0.tgz"⟩
      ∧ ((exImages true).Images (exImagesEnv exNestedTree "/charts/sub/app-1.0.0.tgz")).1
        = none
      ∧ ((exImages true).Images
          (exImagesEnv exNestedTree "/charts/sub/app-1.0.0.tgz")).2.buffer = []
      ∧ ((exImages true).processTarget (exImagesEnv exNestedTree "/charts/sub/app-1.0.0.tgz")
          "/charts/sub/app-1.0.0.tgz".toList).2.buffer = "nginx:1.14.2\n".toList
      ∧ exFlatTree.archivePaths "/charts".toList (basename "/charts".toList)
        = ["/charts/app-1.0.0.tgz".toList]
      ∧ ((exImages false).processDirectory
          (exImagesEnv exFlatTree "/charts/app-1.0.0.tgz") "/charts".toList).2.loaded
        = ["/charts".toList, "/charts/app-1.0.0.tgz".toList] := by
  decide

end HelmMirror
